import Mathlib

/-!
Verification of the ConfigsubHub ingestion-and-extraction pipeline.

This file gives a shallow embedding, in Lean 4, of the pure core of the
repository (src/parser.py, src/telegram_handler.py, and the
`_save_categorized_nodes` helpers of src/file_handler.py and src/config.py),
and proves or refutes the frozen specification claims about it.

Modelling conventions:
* Python strings are modelled as `List Char` (called `Str` below); bytes are
  modelled as `List Nat` with each element < 256.
* Python regular-expression character classes are modelled at ASCII level
  (`\w`, `\s`, `\d` over ASCII), which covers every input the claims and the
  data model range over.
* Functions keep the names of the Python functions they embed.
* I/O (file writes, HTTP transport, DOM parsing) is out of scope per the
  design document; the DOM query results consumed by the scraper are modelled
  as record fields, and the fetch outcome as an inductive datatype.
-/

abbrev Str := List Char

/-- ASCII model of the regex class `\w` (word character). -/
def isWordChar (c : Char) : Bool :=
  c.isAlphanum || c == '_'

/-- ASCII model of the regex class `\s` / Python whitespace:
space, tab, newline, carriage return, vertical tab, form feed. -/
def isSpaceChar (c : Char) : Bool :=
  c == ' ' || c == '\t' || c == '\n' || c == '\r' || c == '\x0b' || c == '\x0c'

/-- A character admissible in the body of a matched node URI: the negated
class `[^\s<>"'\\]` of `parse_nodes`. -/
def bodyChar (c : Char) : Bool :=
  !(isSpaceChar c || c == '<' || c == '>' || c == '"' || c == '\'' || c == '\\')

/-- `leadsWith p s` holds when `p` is an initial segment of `s`
(used to model regex literal matching and Python `str.startswith`). -/
def leadsWith : Str → Str → Bool
  | [], _ => true
  | _ :: _, [] => false
  | a :: as, b :: bs => a == b && leadsWith as bs

/-- Python's substring test `p in s`. -/
def hasSub (p : Str) : Str → Bool
  | [] => leadsWith p []
  | c :: t => leadsWith p (c :: t) || hasSub p t

/-- Python `str.strip()` restricted to ASCII whitespace. -/
def stripStr (s : Str) : Str :=
  ((s.dropWhile isSpaceChar).reverse.dropWhile isSpaceChar).reverse

/-- Python `"\n".join(...)` on a list of strings. -/
def joinNL : List Str → Str
  | [] => []
  | [s] => s
  | s :: t :: r => s ++ '\n' :: joinNL (t :: r)

/-- Lexicographic strict order on strings by code point — the order used by
Python string comparison, hence by `sorted(...)`. -/
def strLt : Str → Str → Bool
  | [], [] => false
  | [], _ :: _ => true
  | _ :: _, [] => false
  | a :: as, b :: bs => a < b || (a == b && strLt as bs)

/-- Insert into a strictly sorted list, dropping duplicates. -/
def insDedup (x : Str) : List Str → List Str
  | [] => [x]
  | y :: ys =>
    if strLt x y then x :: y :: ys
    else if x = y then y :: ys
    else y :: insDedup x ys

/-- `sorted(list(set(l)))` in Python: the strictly ascending enumeration of
the distinct elements of `l`. -/
def sortDedup (l : List Str) : List Str :=
  l.foldr insDedup []

/-- Insert into a sorted list, keeping duplicates. -/
def insKeep (x : Str) : List Str → List Str
  | [] => [x]
  | y :: ys => if strLt x y then x :: y :: ys else y :: insKeep x ys

/-- Python `sorted(l)`: ascending order, duplicates kept. -/
def sortPy (l : List Str) : List Str :=
  l.foldr insKeep []

/-- Decidable check that a list of strings is strictly ascending. -/
def isSortedB : List Str → Bool
  | [] => true
  | [_] => true
  | a :: b :: t => strLt a b && isSortedB (b :: t)

/-- First-occurrence deduplication; used to model converting a Python `set`
accumulated by insertion into a list (CPython's iteration order of a string
set is unspecified; the model fixes first-insertion order, which is immaterial
to every property proved about it except that it is some fixed order). -/
def dedupFirst : List Str → List Str
  | [] => []
  | x :: t => x :: (dedupFirst t).filter (fun y => !(y == x))

/-- Python `content.splitlines()` restricted to the ASCII line breaks
`\n`, `\r`, `\r\n`; a trailing line break does not open a final empty line. -/
def pyLinesGo (cur : Str) : Str → List Str
  | [] => [cur.reverse]
  | '\r' :: '\n' :: rest => cur.reverse :: (if rest.isEmpty then [] else pyLinesGo [] rest)
  | '\r' :: rest => cur.reverse :: (if rest.isEmpty then [] else pyLinesGo [] rest)
  | '\n' :: rest => cur.reverse :: (if rest.isEmpty then [] else pyLinesGo [] rest)
  | c :: rest => pyLinesGo (c :: cur) rest

def pySplitlines : Str → List Str
  | [] => []
  | c :: rest => pyLinesGo [] (c :: rest)

/-- The separator literal `://`. -/
def sepSS : Str := [':', '/', '/']

/-- `node.split('://', 1)[0]`: everything before the first occurrence of
`://`, or the whole string when the separator is absent.  Note Python's
`split` never returns an empty list, so indexing with `[0]` never raises. -/
def splitSS : Str → Str
  | [] => []
  | c :: rest => if leadsWith sepSS (c :: rest) then [] else c :: splitSS rest

def lowerStr (s : Str) : Str := s.map Char.toLower

/-! ## Categorizer (src/parser.py, categorize_nodes) -/

/-- The alias table of `categorize_nodes`: `hysteria2 → hy2` and
`https → http` ("https and http proxies are often treated the same"). -/
def protocol_aliases : List (Str × Str) :=
  [ (['h','y','s','t','e','r','i','a','2'], ['h','y','2']),
    (['h','t','t','p','s'], ['h','t','t','p']) ]

def aliasCanon (p : Str) : Str :=
  match protocol_aliases.lookup p with
  | some v => v
  | none => p

/-- The canonical tag assigned to a node by `categorize_nodes`:
`protocol_aliases.get(node.split('://', 1)[0].lower(), ...)`. -/
def tagOf (n : Str) : Str :=
  aliasCanon (lowerStr (splitSS n))

/-- Ordered-dictionary lookup. -/
def dictGet (k : Str) : List (Str × List Str) → Option (List Str)
  | [] => none
  | (k0, v) :: rest => if k0 = k then some v else dictGet k rest

/-- `categorized[k].append(n)`, creating the key at the end on first use —
the behaviour of an insertion-ordered Python dict. -/
def dictAppend (m : List (Str × List Str)) (k : Str) (n : Str) : List (Str × List Str) :=
  match m with
  | [] => [(k, [n])]
  | (k0, v) :: rest => if k0 = k then (k0, v ++ [n]) :: rest else (k0, v) :: dictAppend rest k n

/-- `d[k] = v`: replace in place, or append the key at the end. -/
def dictSet (m : List (Str × List Str)) (k : Str) (v : List Str) : List (Str × List Str) :=
  match m with
  | [] => [(k, v)]
  | (k0, v0) :: rest => if k0 = k then (k0, v) :: rest else (k0, v0) :: dictSet rest k v

/-- `categorize_nodes` of src/parser.py.  Every node is appended to the bucket
of its canonical tag.  The source wraps the body in `try/except IndexError`,
but `str.split` never returns an empty list, so the except branch is
unreachable and the function is total on string lists. -/
def categorize_nodes (nodes : List Str) : List (Str × List Str) :=
  nodes.foldl (fun m n => dictAppend m (tagOf n) n) []

/-- The key `"all"`. -/
def allKey : Str := ['a', 'l', 'l']

/-- The "all"-synthesis step of `_save_categorized_nodes` in
src/file_handler.py: collect every bucket's nodes in iteration order and, when
non-empty, store `sorted(all_nodes)` (duplicates kept) under `"all"`.
The file writing it then performs is I/O and out of scope. -/
def save_categorized_nodes_fh (m : List (Str × List Str)) : List (Str × List Str) :=
  let all_nodes := (m.map Prod.snd).flatten
  if all_nodes.isEmpty then m else dictSet m allKey (sortPy all_nodes)

/-- The "all"-synthesis step of `_save_categorized_nodes` in src/config.py:
identical except it stores `sorted(list(set(all_nodes)))` (deduplicated). -/
def save_categorized_nodes_cfg (m : List (Str × List Str)) : List (Str × List Str) :=
  let all_nodes := (m.map Prod.snd).flatten
  if all_nodes.isEmpty then m else dictSet m allKey (sortDedup all_nodes)

/-! ## Content normalizer (src/parser.py: is_base64, decode_content) -/

/-- The standard base64 alphabet as a table, index 0–63. -/
def b64Alphabet : Str :=
  (['A','B','C','D','E','F','G','H','I','J','K','L','M','N','O','P','Q','R','S','T','U','V','W','X','Y','Z']
   ++ ['a','b','c','d','e','f','g','h','i','j','k','l','m','n','o','p','q','r','s','t','u','v','w','x','y','z']
   ++ ['0','1','2','3','4','5','6','7','8','9','+','/'])

def isB64Char (c : Char) : Bool := b64Alphabet.contains c

def b64Enc (n : Nat) : Char := b64Alphabet.getD n 'A'

/-- The 6-bit value of a base64 data character. -/
def b64Val (c : Char) : Option Nat :=
  b64Alphabet.indexOf? c

/-- Decode one quantum of four base64 symbols. -/
def b64Quant (a b : Char) (c d : Char) (final : Bool) : Option (List Nat) :=
  match b64Val a, b64Val b with
  | some va, some vb =>
    if final && c == '=' && d == '=' then
      some [va * 4 + vb / 16]
    else if final && d == '=' then
      match b64Val c with
      | some vc => some [va * 4 + vb / 16, vb % 16 * 16 + vc / 4]
      | none => none
    else
      match b64Val c, b64Val d with
      | some vc, some vd =>
        some [va * 4 + vb / 16, vb % 16 * 16 + vc / 4, vc % 4 * 64 + vd]
      | _, _ => none
  | _, _ => none

def b64CoreDec : Str → Option (List Nat)
  | [] => some []
  | a :: b :: c :: d :: rest =>
    match b64Quant a b c d rest.isEmpty with
    | some bytes =>
      match b64CoreDec rest with
      | some more => some (bytes ++ more)
      | none => none
    | none => none
  | _ => none

/-- `base64.b64decode` (validate=False): characters outside the alphabet and
`=` are discarded first, then the remainder must consist of whole quanta.
Returns `none` where the Python call raises `binascii.Error`. -/
def b64decodePy (s : Str) : Option (List Nat) :=
  b64CoreDec (s.filter (fun c => isB64Char c || c == '='))

/-- `base64.b64encode` on a byte string (each element < 256). -/
def b64encodePy : List Nat → Str
  | [] => []
  | [x] => [b64Enc (x / 4), b64Enc (x % 4 * 16), '=', '=']
  | [x, y] => [b64Enc (x / 4), b64Enc (x % 4 * 16 + y / 16), b64Enc (y % 16 * 4), '=']
  | x :: y :: z :: rest =>
    [b64Enc (x / 4), b64Enc (x % 4 * 16 + y / 16), b64Enc (y % 16 * 4 + z / 64), b64Enc (z % 64)]
    ++ b64encodePy rest

/-- The pattern `^[A-Za-z0-9+/]*={0,2}$` of `is_base64`: alphabet characters
followed by at most two `=`; re's `$` also accepts one trailing newline. -/
def b64Shape : Str → Bool
  | [] => true
  | ['='] => true
  | ['=', '='] => true
  | ['\n'] => true
  | ['=', '\n'] => true
  | ['=', '=', '\n'] => true
  | c :: rest => isB64Char c && b64Shape rest

/-- `is_base64` of src/parser.py: non-empty after strip, shaped like base64,
and the decode/re-encode round trip reproduces the input exactly. -/
def is_base64 (s : Str) : Bool :=
  if s.isEmpty || (stripStr s).isEmpty then false
  else if !b64Shape s then false
  else match b64decodePy s with
    | some bytes => b64encodePy bytes == s
    | none => false

/-- Is `b` a UTF-8 continuation byte? -/
def utf8Cont (b : Nat) : Bool := 0x80 ≤ b && b ≤ 0xBF

/-- Strict UTF-8 decoding of a byte string, as `bytes.decode('utf-8')`:
rejects overlong forms, surrogates, and code points above 0x10FFFF.
Returns `none` where Python raises `UnicodeDecodeError`. -/
def utf8Decode : List Nat → Option Str
  | [] => some []
  | b :: rest =>
    if b < 0x80 then
      (utf8Decode rest).map (fun t => Char.ofNat b :: t)
    else if 0xC2 ≤ b && b ≤ 0xDF then
      match rest with
      | c1 :: rest2 =>
        if utf8Cont c1 then
          (utf8Decode rest2).map (fun t => Char.ofNat ((b - 0xC0) * 64 + (c1 - 0x80)) :: t)
        else none
      | [] => none
    else if 0xE0 ≤ b && b ≤ 0xEF then
      match rest with
      | c1 :: c2 :: rest2 =>
        let lo1 := if b == 0xE0 then 0xA0 else 0x80
        let hi1 := if b == 0xED then 0x9F else 0xBF
        if (lo1 ≤ c1 && c1 ≤ hi1) && utf8Cont c2 then
          (utf8Decode rest2).map
            (fun t => Char.ofNat ((b - 0xE0) * 4096 + (c1 - 0x80) * 64 + (c2 - 0x80)) :: t)
        else none
      | _ => none
    else if 0xF0 ≤ b && b ≤ 0xF4 then
      match rest with
      | c1 :: c2 :: c3 :: rest2 =>
        let lo1 := if b == 0xF0 then 0x90 else 0x80
        let hi1 := if b == 0xF4 then 0x8F else 0xBF
        if (lo1 ≤ c1 && c1 ≤ hi1) && (utf8Cont c2 && utf8Cont c3) then
          (utf8Decode rest2).map
            (fun t => Char.ofNat ((b - 0xF0) * 262144 + (c1 - 0x80) * 4096 + (c2 - 0x80) * 64 + (c3 - 0x80)) :: t)
        else none
      | _ => none
    else none

/-- The cleaned line list of `decode_content`:
`[line.strip() for line in content.splitlines() if line.strip()]`. -/
def cleanLines (content : Str) : List Str :=
  ((pySplitlines content).map stripStr).filter (fun l => !l.isEmpty)

/-- `decode_content` of src/parser.py.  When every cleaned line is free of
the space character, the joined blob is tested with `is_base64`; on success
the decoded bytes are interpreted as UTF-8, and any decoding failure returns
the untouched original input (`return content`).  Otherwise the cleaned,
newline-joined text is returned. -/
def decode_content (content : Str) : Str :=
  let lines := cleanLines content
  if !lines.isEmpty && lines.all (fun l => !l.contains ' ') then
    let blob := lines.flatten
    if is_base64 blob then
      match b64decodePy blob with
      | some bytes =>
        match utf8Decode bytes with
        | some text => text
        | none => content
      | none => content
    else joinNL lines
  else joinNL lines

/-! ## Node extractor (src/parser.py: parse_nodes) -/

/-- The protocol alternation of `parse_nodes`, in source order. -/
def protosMain : List Str :=
  [ ['v','l','e','s','s'], ['v','m','e','s','s'], ['t','r','o','j','a','n'],
    ['s','s'], ['s','s','r'], ['t','u','i','c'], ['h','y','2'],
    ['h','y','s','t','e','r','i','a','2'], ['h','y','s','t','e','r','i','a'],
    ['s','n','e','l','l'], ['a','n','y','t','l','s'], ['m','i','e','r','u'],
    ['j','u','i','c','i','t','y'], ['s','s','h'],
    ['w','i','r','e','g','u','a','r','d'], ['w','a','r','p'],
    ['s','o','c','k','s','4'], ['s','o','c','k','s','5'],
    ['m','t','p','r','o','t','o'], ['h','t','t','p'], ['h','t','t','p','s'] ]

/-- Regex word-boundary condition before a word character, given the
preceding character (`none` at the start of the text). -/
def boundaryB : Option Char → Bool
  | none => true
  | some c => !isWordChar c

/-- Leftmost-alternative matching of `(?:p1|p2|…)://` at the head of `s`,
case-insensitively; on success returns the matched protocol text (original
case) and the remainder after `://`. -/
def tryProtos : List Str → Str → Option (Str × Str)
  | [], _ => none
  | p :: ps, s =>
    if lowerStr (s.take p.length) = p ∧ (s.drop p.length).take 3 = sepSS then
      some (s.take p.length, s.drop (p.length + 3))
    else tryProtos ps s

/-- The scan of `re.findall` for the protocol pattern
`(?i)\b((?:…)://[^\s<>"'\\]+)`: try a match at each position, with the
word-boundary judged from the previous character; a successful match emits
the matched text and resumes after it (`k` counts positions still to skip). -/
def scanGo : Nat → Option Char → Str → List Str
  | _, _, [] => []
  | k + 1, _, c :: rest => scanGo k (some c) rest
  | 0, prev, c :: rest =>
    if boundaryB prev then
      match tryProtos protosMain (c :: rest) with
      | some (pt, after) =>
        let body := after.takeWhile bodyChar
        if body.isEmpty then scanGo 0 (some c) rest
        else (pt ++ sepSS ++ body) :: scanGo (pt.length + 2 + body.length) (some c) rest
      | none => scanGo 0 (some c) rest
    else scanGo 0 (some c) rest

/-- A digit run of length 1–3 at the head of `s` (the behaviour of greedy
`\d{1,3}` whose follower must be a non-digit literal). -/
def tryOctet (s : Str) : Option (Str × Str) :=
  let r := s.takeWhile Char.isDigit
  if 1 ≤ r.length ∧ r.length ≤ 3 then some (r, s.drop r.length) else none

/-- The trailing `\b` of the ip:port pattern, judged on what follows. -/
def afterPortOk : Str → Bool
  | [] => true
  | c :: _ => !isWordChar c

/-- Match one literal character at the head of `s`, returning the rest. -/
def expectChar (c : Char) : Str → Option Str
  | x :: t => if x = c then some t else none
  | [] => none

/-- A match of `\d{1,3}(?:\.\d{1,3}){3}:\d{1,5}\b` at the head of `s`:
four octets separated by literal dots, a literal colon, and a port run of
1–5 digits whose follower satisfies the trailing word boundary. -/
def tryIp (s : Str) : Option Str :=
  match tryOctet s with
  | some (d1, s1) =>
    match expectChar '.' s1 with
    | some t1 =>
      match tryOctet t1 with
      | some (d2, s2) =>
        match expectChar '.' s2 with
        | some t2 =>
          match tryOctet t2 with
          | some (d3, s3) =>
            match expectChar '.' s3 with
            | some t3 =>
              match tryOctet t3 with
              | some (d4, s4) =>
                match expectChar ':' s4 with
                | some t4 =>
                  let r5 := t4.takeWhile Char.isDigit
                  if 1 ≤ r5.length ∧ r5.length ≤ 5 ∧ afterPortOk (t4.drop r5.length) then
                    some (d1 ++ '.' :: (d2 ++ '.' :: (d3 ++ '.' :: (d4 ++ ':' :: r5))))
                  else none
                | none => none
              | none => none
            | none => none
          | none => none
        | none => none
      | none => none
    | none => none
  | none => none

/-- The scan of `re.findall` for the pattern
`\b(\d{1,3}(?:\.\d{1,3}){3}:\d{1,5})\b`. -/
def scanIpGo : Nat → Option Char → Str → List Str
  | _, _, [] => []
  | k + 1, _, c :: rest => scanIpGo k (some c) rest
  | 0, prev, c :: rest =>
    if boundaryB prev then
      match tryIp (c :: rest) with
      | some m => m :: scanIpGo (m.length - 1) (some c) rest
      | none => scanIpGo 0 (some c) rest
    else scanIpGo 0 (some c) rest

def httpPre : Str := ['h','t','t','p',':','/','/']

/-- The ip:port fallback loop of `parse_nodes`: each found ip:port that is a
substring of no node found so far is added as `http://ip:port`. -/
def addProxies : List Str → List Str → List Str
  | found, [] => found
  | found, p :: ps =>
    if found.any (fun n => hasSub p n) then addProxies found ps
    else addProxies (found ++ [httpPre ++ p]) ps

/-- `parse_nodes` of src/parser.py: protocol-URI matches plus wrapped bare
ip:port proxies, deduplicated and sorted (`sorted(list(found_nodes))`). -/
def parse_nodes (t : Str) : List Str :=
  sortDedup (addProxies (scanGo 0 none t) (scanIpGo 0 none t))

/-! ## Config splitting (src/telegram_handler.py) -/

/-- The literal prefix of the Telegram proxy-link pattern
`https:\/\/t\.me\/proxy\?[^\s]+`. -/
def tgLit : Str :=
  ['h','t','t','p','s',':','/','/','t','.','m','e','/','p','r','o','x','y','?']

/-- The scan of `finditer` for the Telegram proxy-link pattern. -/
def scanTgGo : Nat → Str → List Str
  | _, [] => []
  | k + 1, _ :: rest => scanTgGo k rest
  | 0, c :: rest =>
    if leadsWith tgLit (c :: rest) then
      let body := ((c :: rest).drop tgLit.length).takeWhile (fun ch => !isSpaceChar ch)
      if body.isEmpty then scanTgGo 0 rest
      else (tgLit ++ body) :: scanTgGo (tgLit.length + body.length - 1) rest
    else scanTgGo 0 rest

/-- Prefix of `s` before the first occurrence of `c` (whole string if absent). -/
def beforeChar (c : Char) : Str → Str
  | [] => []
  | x :: t => if x == c then [] else x :: beforeChar c t

/-- Suffix of `s` after the first occurrence of `c` (empty if absent). -/
def afterFirst (c : Char) : Str → Str
  | [] => []
  | x :: t => if x == c then t else afterFirst c t

/-- Split on a separator character, keeping empty fields. -/
def splitOn (c : Char) : Str → List Str
  | [] => [[]]
  | x :: t =>
    if x == c then [] :: splitOn c t
    else
      match splitOn c t with
      | h :: r => (x :: h) :: r
      | [] => [[x]]

/-- `urllib.parse.parse_qs` on a query string, restricted to what the
converter consumes: fields split on `&`, name/value split at the first `=`,
blank values dropped (keep_blank_values=False).  Percent-escapes and `+`
unquoting are not modelled (no claim exercises them). -/
def qsPairs (q : Str) : List (Str × Str) :=
  (splitOn '&' q).filterMap (fun f =>
    if f.contains '=' then
      let v := afterFirst '=' f
      if v.isEmpty then none else some (beforeChar '=' f, v)
    else none)

def qsFirst (k : Str) (q : Str) : Option Str :=
  ((qsPairs q).find? (fun p => p.1 == k)).map Prod.snd

def isHexChar (c : Char) : Bool :=
  c.isDigit || ('a' ≤ c && c ≤ 'f') || ('A' ≤ c && c ≤ 'F')

def mtprotoPre : Str := ['m','t','p','r','o','t','o',':','/','/']

def serverKey : Str := ['s','e','r','v','e','r']
def portKey : Str := ['p','o','r','t']
def secretKey : Str := ['s','e','c','r','e','t']

/-- `convert_telegram_proxy_to_mtproto` of src/telegram_handler.py: read
`server`, `port`, `secret` from the query string (the part after the first
`?`, with any `#` fragment cut off first, as `urlparse` does); a 32-character
hex secret gets a `dd` marker; compose `mtproto://{secret}@{server}:{port}`. -/
def convert_telegram_proxy_to_mtproto (url : Str) : Option Str :=
  let q := afterFirst '?' (beforeChar '#' url)
  match qsFirst serverKey q, qsFirst portKey q, qsFirst secretKey q with
  | some server, some port, some secret =>
    let secret2 :=
      if secret.length = 32 ∧ secret.all isHexChar then 'd' :: 'd' :: secret else secret
    some (mtprotoPre ++ secret2 ++ '@' :: (server ++ ':' :: port))
  | _, _, _ => none

/-- The standard alternation of `find_and_split_configs`, in source order
(case-sensitive, no word boundary, no mtproto). -/
def protosStd : List Str :=
  [ ['v','l','e','s','s'], ['v','m','e','s','s'], ['t','r','o','j','a','n'],
    ['s','s'], ['s','s','r'], ['t','u','i','c'], ['h','y','2'],
    ['h','y','s','t','e','r','i','a','2'], ['h','y','s','t','e','r','i','a'],
    ['s','n','e','l','l'], ['a','n','y','t','l','s'], ['m','i','e','r','u'],
    ['j','u','i','c','i','t','y'], ['s','s','h'],
    ['w','i','r','e','g','u','a','r','d'], ['w','a','r','p'],
    ['s','o','c','k','s','4'], ['s','o','c','k','s','5'],
    ['h','t','t','p'], ['h','t','t','p','s'] ]

/-- Leftmost-alternative match of `(p1|p2|…)://` at the head of `s`;
returns the length of the whole match. -/
def tryStd : List Str → Str → Option Nat
  | [], _ => none
  | p :: ps, s =>
    if leadsWith p s ∧ (s.drop p.length).take 3 = sepSS then some (p.length + 3)
    else tryStd ps s

/-- `m.start()` positions of the `finditer` scan for the standard pattern. -/
def stdGo : Nat → Nat → Str → List Nat
  | _, _, [] => []
  | i, k + 1, _ :: rest => stdGo (i + 1) k rest
  | i, 0, c :: rest =>
    match tryStd protosStd (c :: rest) with
    | some len => i :: stdGo (i + 1) (len - 1) rest
    | none => stdGo (i + 1) 0 rest

def standardIndices (t : Str) : List Nat := stdGo 0 0 t

/-- The slicing loop of `find_and_split_configs`: each scheme-start index
opens a slice that ends at the next index (or at the end of the text),
stripped of surrounding whitespace. -/
def slicesAt (t : Str) : List Nat → List Str
  | [] => []
  | [i] => [stripStr (t.drop i)]
  | i :: j :: rest => stripStr ((t.drop i).take (j - i)) :: slicesAt t (j :: rest)

/-- `find_and_split_configs` of src/telegram_handler.py: Telegram proxy links
converted to mtproto URIs, plus the text sliced at standard scheme starts,
all validated through `parse_nodes` of their newline join. -/
def find_and_split_configs (t : Str) : List Str :=
  let mt := (scanTgGo 0 t).filterMap convert_telegram_proxy_to_mtproto
  let parts := slicesAt t (standardIndices t)
  parse_nodes (joinNL (mt ++ parts))

/-- A well-formed node: `tryProtos` matches a protocol at its head and the
whole remainder after `://` is a non-empty run of body characters.  Every
string emitted by `parse_nodes` has this shape. -/
def wfNode (n : Str) : Bool :=
  match tryProtos protosMain n with
  | some (_, after) => !after.isEmpty && after.all bodyChar
  | none => false

/-! ## Channel scraper (src/telegram_handler.py) -/

/-- The outcome of reading a post's `<time datetime=…>` attribute and parsing
it with `datetime.fromisoformat`: tag absent, attribute unparseable
(`ValueError`), or a parsed timestamp (modelled as an integer instant). -/
inductive TimeAttr
  | missing
  | unparseable
  | parsed (t : Int)
deriving DecidableEq

/-- A Telegram post as seen through the DOM query surface used by
`scrape_channel` (after `<br>` tags are replaced by newlines):
the `href` attributes of its anchors, the `get_text()` of its `code`/`pre`
descendants, its own `get_text()`, and its timestamp attribute. -/
structure TgMessage where
  hrefs : List Str
  codePre : List Str
  text : Str
  time : TimeAttr

/-- The literal `'t.me/proxy?'` filtering anchor targets. -/
def tgNeedle : Str := ['t','.','m','e','/','p','r','o','x','y','?']

/-- `extract_potential_configs_from_message` of src/telegram_handler.py:
anchors whose href contains `t.me/proxy?`, then `code`/`pre` contents, then
the full text, joined with newlines. -/
def extract_potential_configs_from_message (m : TgMessage) : Str :=
  joinNL ((m.hrefs.filter (fun h => hasSub tgNeedle h)) ++ m.codePre ++ [m.text])

/-- The fetch outcome of `requests.get` + `raise_for_status` for a channel
page: a 404 `HTTPError`, another `HTTPError` (non-2xx ≠ 404), a
`RequestException` (timeout, connection error), or a page whose parsed post
elements are `posts`. -/
inductive FetchOutcome
  | notFound
  | httpError
  | requestError
  | success (posts : List TgMessage)

/-- The post loop of `scrape_channel`: skip a post with a missing or
unparseable timestamp, break at the first post older than the cutoff,
otherwise extract (skipping posts whose candidate text strips to empty)
and accumulate. -/
def scrapeLoop (cutoff : Int) : List TgMessage → List Str
  | [] => []
  | m :: ms =>
    match m.time with
    | .missing => scrapeLoop cutoff ms
    | .unparseable => scrapeLoop cutoff ms
    | .parsed t =>
      if t < cutoff then []
      else
        let postText := extract_potential_configs_from_message m
        if (stripStr postText).isEmpty then scrapeLoop cutoff ms
        else find_and_split_configs postText ++ scrapeLoop cutoff ms

/-- `scrape_channel` of src/telegram_handler.py, over the fetch outcome and
the cutoff instant (`datetime.now(utc) - timedelta(days=TELEGRAM_POST_MAX_AGE_DAYS)`).
Returns `(list(all_configs), is_valid)`; the set `all_configs` is modelled as
its first-insertion-order enumeration. -/
def scrape_channel (cutoff : Int) : FetchOutcome → List Str × Bool
  | .notFound => ([], false)
  | .httpError => ([], true)
  | .requestError => ([], true)
  | .success posts =>
    if posts.isEmpty then ([], true)
    else (dedupFirst (scrapeLoop cutoff posts), true)

/-! ## Spec-side comparator for the candidate-text claim -/

/-- Python `str.split()` with no separator: split on whitespace runs. -/
def splitWsAux (cur : Str) : Str → List Str
  | [] => if cur.isEmpty then [] else [cur.reverse]
  | c :: t =>
    if isSpaceChar c then
      if cur.isEmpty then splitWsAux [] t else cur.reverse :: splitWsAux [] t
    else splitWsAux (c :: cur) t

def pySplitWs (s : Str) : List Str := splitWsAux [] s

/-- Modelled from the spec: `html.unescape` restricted to the five standard
entities (enough to express the spec's "HTML-unescape the result" step,
which the source never performs). -/
def htmlUnescape : Str → Str
  | [] => []
  | '&' :: 'a' :: 'm' :: 'p' :: ';' :: rest => '&' :: htmlUnescape rest
  | '&' :: 'l' :: 't' :: ';' :: rest => '<' :: htmlUnescape rest
  | '&' :: 'g' :: 't' :: ';' :: rest => '>' :: htmlUnescape rest
  | '&' :: 'q' :: 'u' :: 'o' :: 't' :: ';' :: rest => '"' :: htmlUnescape rest
  | '&' :: '#' :: '3' :: '9' :: ';' :: rest => '\'' :: htmlUnescape rest
  | c :: rest => c :: htmlUnescape rest

/-- Modelled from the spec: layer (iii) of the claimed candidate text — every
whitespace-delimited token of the post text longer than 20 characters that
passes the base64 round-trip test, decoded. -/
def specB64Extras (text : Str) : List Str :=
  (pySplitWs text).filterMap (fun tok =>
    if 20 < tok.length ∧ is_base64 tok then
      match b64decodePy tok with
      | some bs => utf8Decode bs
      | none => none
    else none)

/-- Modelled from the spec: the candidate text the claim says is handed to
the extractor — preformatted/code regions, the plain-text rendering, and the
decoded long base64 tokens, concatenated and HTML-unescaped. -/
def specCandidateText (m : TgMessage) : Str :=
  htmlUnescape (joinNL (m.codePre ++ [m.text] ++ specB64Extras m.text))

/-! ## Remaining small definitions used by the statements -/

def httpKey : Str := ['h','t','t','p']
def httpsKey : Str := ['h','t','t','p','s']
def hy2Key : Str := ['h','y','2']
def hysteria2Key : Str := ['h','y','s','t','e','r','i','a','2']

/-- Decidable check that a list of strings is ascending (duplicates allowed). -/
def isSortedLeB : List Str → Bool
  | [] => true
  | [_] => true
  | a :: b :: t => !strLt b a && isSortedLeB (b :: t)

/-! # Theorems -/

/-! ## Order and sorting lemmas -/

theorem strLt_irrefl (a : Str) : strLt a a = false := by
  induction a with
  | nil => rfl
  | cons c t ih => simp [strLt, ih]

theorem strLt_trans {a b c : Str} (h1 : strLt a b = true) (h2 : strLt b c = true) :
    strLt a c = true := by
  induction a generalizing b c with
  | nil =>
    cases b with
    | nil => simp [strLt] at h1
    | cons y bs =>
      cases c with
      | nil => simp [strLt] at h2
      | cons z cs => simp [strLt]
  | cons x as ih =>
    cases b with
    | nil => simp [strLt] at h1
    | cons y bs =>
      cases c with
      | nil => simp [strLt] at h2
      | cons z cs =>
        simp [strLt] at h1 h2 ⊢
        rcases h1 with h1 | ⟨rfl, h1⟩
        · rcases h2 with h2 | ⟨rfl, h2⟩
          · exact Or.inl (lt_trans h1 h2)
          · exact Or.inl h1
        · rcases h2 with h2 | ⟨rfl, h2⟩
          · exact Or.inl h2
          · exact Or.inr ⟨rfl, ih h1 h2⟩

theorem strLt_connect (a b : Str) : a = b ∨ strLt a b = true ∨ strLt b a = true := by
  induction a generalizing b with
  | nil =>
    cases b with
    | nil => exact Or.inl rfl
    | cons y bs => exact Or.inr (Or.inl (by simp [strLt]))
  | cons x as ih =>
    cases b with
    | nil => exact Or.inr (Or.inr (by simp [strLt]))
    | cons y bs =>
      rcases lt_trichotomy x y with hxy | rfl | hxy
      · exact Or.inr (Or.inl (by simp [strLt, hxy]))
      · rcases ih bs with rfl | h | h
        · exact Or.inl rfl
        · exact Or.inr (Or.inl (by simp [strLt, h]))
        · exact Or.inr (Or.inr (by simp [strLt, h]))
      · exact Or.inr (Or.inr (by simp [strLt, hxy]))

theorem strLt_asymm {a b : Str} (h1 : strLt a b = true) (h2 : strLt b a = true) : False := by
  have := strLt_trans h1 h2
  rw [strLt_irrefl] at this
  exact Bool.false_ne_true this

theorem strLt_ne {a b : Str} (h : strLt a b = true) : a ≠ b := by
  rintro rfl
  rw [strLt_irrefl] at h
  exact Bool.false_ne_true h

theorem mem_insDedup {x y : Str} {l : List Str} :
    y ∈ insDedup x l ↔ y = x ∨ y ∈ l := by
  induction l with
  | nil => simp [insDedup]
  | cons z t ih =>
    by_cases h1 : strLt x z = true
    · rw [insDedup, if_pos h1]
      simp
    · by_cases h2 : x = z
      · subst h2
        rw [insDedup, if_neg h1, if_pos rfl]
        simp
      · rw [insDedup, if_neg h1, if_neg h2]
        simp [ih]
        tauto

theorem sortedB_cons {a : Str} {l : List Str} :
    isSortedB (a :: l) = true ↔ (∀ b ∈ l.head?, strLt a b = true) ∧ isSortedB l = true := by
  cases l with
  | nil => simp [isSortedB]
  | cons b t => simp [isSortedB, Bool.and_eq_true]

theorem sortedB_head_lt {a x : Str} {l : List Str}
    (hs : isSortedB (a :: l) = true) (hx : x ∈ l) : strLt a x = true := by
  induction l generalizing a with
  | nil => cases hx
  | cons b t ih =>
    have h1 : strLt a b = true := by
      simp [isSortedB, Bool.and_eq_true] at hs
      exact hs.1
    rcases hx with _ | hx
    · exact h1
    · have hs2 : isSortedB (b :: t) = true := by
        simp [isSortedB, Bool.and_eq_true] at hs
        exact hs.2
      exact strLt_trans h1 (ih hs2 (by assumption))

theorem sorted_insDedup {x : Str} {l : List Str} (h : isSortedB l = true) :
    isSortedB (insDedup x l) = true := by
  induction l with
  | nil => simp [insDedup, isSortedB]
  | cons z t ih =>
    by_cases h1 : strLt x z = true
    · rw [insDedup, if_pos h1, sortedB_cons]
      exact ⟨fun b hb => by simp at hb; subst hb; exact h1, h⟩
    · by_cases h2 : x = z
      · rw [insDedup, if_neg h1, if_pos h2]
        exact h
      · have ht : isSortedB t = true := (sortedB_cons.mp h).2
        have hzx : strLt z x = true := by
          rcases strLt_connect x z with rfl | hc | hc
          · exact absurd rfl h2
          · exact absurd hc h1
          · exact hc
        rw [insDedup, if_neg h1, if_neg h2, sortedB_cons]
        refine ⟨?_, ih ht⟩
        intro b hb
        cases t with
        | nil => simp [insDedup] at hb; subst hb; exact hzx
        | cons w tw =>
          by_cases hxw : strLt x w = true
          · rw [insDedup, if_pos hxw] at hb
            simp at hb; subst hb; exact hzx
          · by_cases hxw2 : x = w
            · rw [insDedup, if_neg hxw, if_pos hxw2] at hb
              simp at hb; subst hb
              exact (sortedB_cons.mp h).1 w rfl
            · rw [insDedup, if_neg hxw, if_neg hxw2] at hb
              simp at hb; subst hb
              exact (sortedB_cons.mp h).1 w rfl

theorem mem_sortDedup {y : Str} {l : List Str} : y ∈ sortDedup l ↔ y ∈ l := by
  induction l with
  | nil => simp [sortDedup]
  | cons x t ih =>
    show y ∈ insDedup x (sortDedup t) ↔ _
    rw [mem_insDedup]
    simp [ih]

theorem sorted_sortDedup (l : List Str) : isSortedB (sortDedup l) = true := by
  induction l with
  | nil => rfl
  | cons x t ih => exact sorted_insDedup ih

theorem sortDedup_of_sorted {l : List Str} (h : isSortedB l = true) : sortDedup l = l := by
  induction l with
  | nil => rfl
  | cons x t ih =>
    have ht : isSortedB t = true := (sortedB_cons.mp h).2
    show insDedup x (sortDedup t) = x :: t
    rw [ih ht]
    cases t with
    | nil => rfl
    | cons b tb =>
      have hxb : strLt x b = true := (sortedB_cons.mp h).1 b rfl
      simp [insDedup, hxb]

theorem sorted_ext {l m : List Str} (hl : isSortedB l = true) (hm : isSortedB m = true)
    (h : ∀ x, x ∈ l ↔ x ∈ m) : l = m := by
  induction l generalizing m with
  | nil =>
    cases m with
    | nil => rfl
    | cons b t => exact absurd ((h b).mpr (by simp)) (by simp)
  | cons a t ih =>
    cases m with
    | nil => exact absurd ((h a).mp (by simp)) (by simp)
    | cons b s =>
      have hab : a = b := by
        have ha := (h a).mp (by simp)
        rw [List.mem_cons] at ha
        rcases ha with hab | ha
        · exact hab
        · have hb := (h b).mpr (by simp)
          rw [List.mem_cons] at hb
          rcases hb with hb | hb
          · exact hb.symm
          · exact absurd (strLt_trans (sortedB_head_lt hm ha) (sortedB_head_lt hl hb))
              (by rw [strLt_irrefl]; simp)
      subst hab
      have htail : ∀ x, x ∈ t ↔ x ∈ s := by
        intro x
        constructor
        · intro hx
          have hx1 := (h x).mp (by simp [hx])
          rw [List.mem_cons] at hx1
          rcases hx1 with rfl | hx2
          · exact absurd (sortedB_head_lt hl hx) (by rw [strLt_irrefl]; simp)
          · exact hx2
        · intro hx
          have hx1 := (h x).mpr (by simp [hx])
          rw [List.mem_cons] at hx1
          rcases hx1 with rfl | hx2
          · exact absurd (sortedB_head_lt hm hx) (by rw [strLt_irrefl]; simp)
          · exact hx2
      exact congrArg (a :: ·) (ih (sortedB_cons.mp hl).2 (sortedB_cons.mp hm).2 htail)

theorem insKeep_perm (x : Str) (l : List Str) : List.Perm (insKeep x l) (x :: l) := by
  induction l with
  | nil => exact List.Perm.refl _
  | cons z t ih =>
    by_cases h1 : strLt x z = true
    · rw [insKeep, if_pos h1]
    · rw [insKeep, if_neg h1]
      exact List.Perm.trans (List.Perm.cons z ih) (List.Perm.swap x z t)

theorem sortPy_perm (l : List Str) : List.Perm (sortPy l) l := by
  induction l with
  | nil => exact List.Perm.refl _
  | cons x t ih =>
    exact List.Perm.trans (insKeep_perm x (sortPy t)) (List.Perm.cons x ih)

theorem sortedLeB_cons {a : Str} {l : List Str} :
    isSortedLeB (a :: l) = true ↔ (∀ b ∈ l.head?, strLt b a = false) ∧ isSortedLeB l = true := by
  cases l with
  | nil => simp [isSortedLeB]
  | cons b t => simp [isSortedLeB, Bool.and_eq_true]

theorem insKeep_sortedLe {x : Str} {l : List Str} (h : isSortedLeB l = true) :
    isSortedLeB (insKeep x l) = true := by
  induction l with
  | nil => simp [insKeep, isSortedLeB]
  | cons z t ih =>
    by_cases h1 : strLt x z = true
    · rw [insKeep, if_pos h1, sortedLeB_cons]
      refine ⟨fun b hb => ?_, h⟩
      simp at hb; subst hb
      by_cases hzx : strLt z x = true
      · exact absurd (strLt_trans h1 hzx) (by rw [strLt_irrefl]; simp)
      · simpa using hzx
    · have ht : isSortedLeB t = true := (sortedLeB_cons.mp h).2
      rw [insKeep, if_neg h1, sortedLeB_cons]
      refine ⟨?_, ih ht⟩
      intro b hb
      cases t with
      | nil =>
        simp [insKeep] at hb; subst hb
        simpa using h1
      | cons w tw =>
        by_cases hxw : strLt x w = true
        · rw [insKeep, if_pos hxw] at hb
          simp at hb; subst hb
          simpa using h1
        · rw [insKeep, if_neg hxw] at hb
          simp at hb; subst hb
          exact (sortedLeB_cons.mp h).1 w rfl

theorem sortPy_sortedLe (l : List Str) : isSortedLeB (sortPy l) = true := by
  induction l with
  | nil => rfl
  | cons x t ih => exact insKeep_sortedLe ih

theorem sortedLe_nodup_sorted {l : List Str} (h1 : isSortedLeB l = true) (h2 : l.Nodup) :
    isSortedB l = true := by
  induction l with
  | nil => rfl
  | cons a t ih =>
    cases t with
    | nil => rfl
    | cons b s =>
      have hab : a ≠ b := by
        intro hab
        subst hab
        simp at h2
      have hle : strLt b a = false := (sortedLeB_cons.mp h1).1 b rfl
      have hlt : strLt a b = true := by
        rcases strLt_connect a b with rfl | hc | hc
        · exact absurd rfl hab
        · exact hc
        · rw [hc] at hle; exact absurd hle (by simp)
      rw [sortedB_cons]
      exact ⟨fun c hc => by simp at hc; subst hc; exact hlt,
        ih (sortedLeB_cons.mp h1).2 (List.Nodup.of_cons h2)⟩

theorem mem_dedupFirst {y : Str} {l : List Str} : y ∈ dedupFirst l ↔ y ∈ l := by
  induction l with
  | nil => simp [dedupFirst]
  | cons x t ih =>
    simp only [dedupFirst, List.mem_cons, List.mem_filter, ih]
    constructor
    · rintro (rfl | ⟨hy, _⟩)
      · exact Or.inl rfl
      · exact Or.inr hy
    · rintro (rfl | hy)
      · exact Or.inl rfl
      · by_cases hxy : y = x
        · exact Or.inl hxy
        · exact Or.inr ⟨hy, by simp [hxy]⟩

theorem dedupFirst_nodup (l : List Str) : (dedupFirst l).Nodup := by
  induction l with
  | nil => simp [dedupFirst]
  | cons x t ih =>
    rw [dedupFirst, List.nodup_cons]
    refine ⟨?_, List.Nodup.filter _ ih⟩
    intro hx
    rw [List.mem_filter] at hx
    simp at hx

theorem dropWhile_all_false {p : Char → Bool} {s : Str} (h : ∀ c ∈ s, p c = false) :
    s.dropWhile p = s := by
  cases s with
  | nil => rfl
  | cons c t =>
    rw [List.dropWhile_cons, if_neg]
    rw [h c (by simp)]
    simp

theorem stripStr_of_noSpace {s : Str} (h : ∀ c ∈ s, isSpaceChar c = false) :
    stripStr s = s := by
  unfold stripStr
  rw [dropWhile_all_false h, dropWhile_all_false (fun c hc => h c (by simpa using hc))]
  simp

theorem dictGet_dictSet_self (m : List (Str × List Str)) (k : Str) (v : List Str) :
    dictGet k (dictSet m k v) = some v := by
  induction m with
  | nil => simp [dictSet, dictGet]
  | cons p rest ih =>
    obtain ⟨k0, v0⟩ := p
    by_cases h : k0 = k
    · rw [dictSet, if_pos h, dictGet, if_pos h]
    · rw [dictSet, if_neg h, dictGet, if_neg h]
      exact ih

theorem dictGet_dictAppend_self (m : List (Str × List Str)) (k : Str) (n : Str) :
    dictGet k (dictAppend m k n) = some (((dictGet k m).getD []) ++ [n]) := by
  induction m with
  | nil => simp [dictAppend, dictGet]
  | cons p rest ih =>
    obtain ⟨k0, v0⟩ := p
    by_cases h : k0 = k
    · rw [dictAppend, if_pos h, dictGet, if_pos h, dictGet, if_pos h]
      rfl
    · rw [dictAppend, if_neg h, dictGet, if_neg h, dictGet, if_neg h]
      exact ih

theorem dictGet_dictAppend_ne (m : List (Str × List Str)) {k k2 : Str} (n : Str)
    (h : k2 ≠ k) : dictGet k2 (dictAppend m k n) = dictGet k2 m := by
  induction m with
  | nil =>
    show dictGet k2 [(k, [n])] = none
    rw [dictGet, if_neg (fun hh => h hh.symm)]
    rfl
  | cons p rest ih =>
    obtain ⟨k0, v0⟩ := p
    by_cases h0 : k0 = k
    · subst h0
      rw [dictAppend, if_pos rfl, dictGet, if_neg (fun hh => h hh.symm), dictGet,
        if_neg (fun hh => h hh.symm)]
    · rw [dictAppend, if_neg h0]
      by_cases h2 : k0 = k2
      · rw [dictGet, if_pos h2, dictGet, if_pos h2]
      · rw [dictGet, if_neg h2, dictGet, if_neg h2]
        exact ih

theorem flatten_dictAppend (m : List (Str × List Str)) (k : Str) (n : Str) :
    List.Perm ((dictAppend m k n).map Prod.snd).flatten (((m.map Prod.snd).flatten) ++ [n]) := by
  induction m with
  | nil => simp [dictAppend]
  | cons p rest ih =>
    obtain ⟨k0, v0⟩ := p
    by_cases h : k0 = k
    · rw [dictAppend, if_pos h]
      simp only [List.map_cons, List.flatten_cons, List.append_assoc]
      refine List.Perm.append_left v0 ?_
      exact (List.perm_append_singleton n _).symm
    · rw [dictAppend, if_neg h]
      simp only [List.map_cons, List.flatten_cons, List.append_assoc]
      exact List.Perm.append_left v0 ih

/-! ## Categorizer lemmas -/

theorem aliasCanon_spec (p : Str) :
    aliasCanon p = if p = hysteria2Key then hy2Key else if p = httpsKey then httpKey else p := by
  by_cases h1 : p = hysteria2Key
  · subst h1
    rw [if_pos rfl]
    rfl
  · by_cases h2 : p = httpsKey
    · subst h2
      rw [if_neg h1, if_pos rfl]
      rfl
    · rw [if_neg h1, if_neg h2]
      have e1 : (p == (['h','y','s','t','e','r','i','a','2'] : Str)) = false := by
        simpa [hysteria2Key] using h1
      have e2 : (p == (['h','t','t','p','s'] : Str)) = false := by
        simpa [httpsKey] using h2
      unfold aliasCanon
      simp [protocol_aliases, List.lookup, e1, e2]

theorem aliasCanon_ne_https (p : Str) : aliasCanon p ≠ httpsKey := by
  rw [aliasCanon_spec]
  by_cases h1 : p = hysteria2Key
  · rw [if_pos h1]
    decide
  · rw [if_neg h1]
    by_cases h2 : p = httpsKey
    · rw [if_pos h2]
      decide
    · rw [if_neg h2]
      exact h2

theorem aliasCanon_ne_hysteria2 (p : Str) : aliasCanon p ≠ hysteria2Key := by
  rw [aliasCanon_spec]
  by_cases h1 : p = hysteria2Key
  · rw [if_pos h1]
    decide
  · rw [if_neg h1]
    by_cases h2 : p = httpsKey
    · rw [if_pos h2]
      decide
    · rw [if_neg h2]
      exact h1

theorem categorize_get_none {k : Str} (ns : List Str) (acc : List (Str × List Str))
    (hacc : dictGet k acc = none) (h : ∀ n ∈ ns, tagOf n ≠ k) :
    dictGet k (ns.foldl (fun m n => dictAppend m (tagOf n) n) acc) = none := by
  induction ns generalizing acc with
  | nil => exact hacc
  | cons n t ih =>
    rw [List.foldl_cons]
    refine ih _ ?_ (fun x hx => h x (by simp [hx]))
    rw [dictGet_dictAppend_ne _ _ (fun hh => (h n (by simp)) hh.symm)]
    exact hacc

theorem categorize_mem_preserved (ns : List Str) (acc : List (Str × List Str))
    {k : Str} {b : List Str} {n : Str} (hb : dictGet k acc = some b) (hn : n ∈ b) :
    ∃ b2, dictGet k (ns.foldl (fun m x => dictAppend m (tagOf x) x) acc) = some b2 ∧ n ∈ b2 := by
  induction ns generalizing acc b with
  | nil => exact ⟨b, hb, hn⟩
  | cons x t ih =>
    rw [List.foldl_cons]
    by_cases h : k = tagOf x
    · subst h
      have hb2 : dictGet (tagOf x) (dictAppend acc (tagOf x) x) = some (b ++ [x]) := by
        rw [dictGet_dictAppend_self, hb]
        rfl
      exact ih _ hb2 (by simp [hn])
    · have hb2 : dictGet k (dictAppend acc (tagOf x) x) = some b := by
        rw [dictGet_dictAppend_ne _ _ h]
        exact hb
      exact ih _ hb2 hn

theorem categorize_mem_bucket {ns : List Str} {n : Str} (hn : n ∈ ns)
    (acc : List (Str × List Str)) :
    ∃ b, dictGet (tagOf n) (ns.foldl (fun m x => dictAppend m (tagOf x) x) acc) = some b
      ∧ n ∈ b := by
  induction ns generalizing acc with
  | nil => cases hn
  | cons x t ih =>
    rw [List.foldl_cons]
    rcases List.mem_cons.mp hn with rfl | hn2
    · exact categorize_mem_preserved t _ (dictGet_dictAppend_self acc (tagOf n) n) (by simp)
    · exact ih hn2 _

theorem categorize_flatten_perm (ns : List Str) (acc : List (Str × List Str)) :
    List.Perm (((ns.foldl (fun m x => dictAppend m (tagOf x) x) acc).map Prod.snd).flatten)
      (((acc.map Prod.snd).flatten) ++ ns) := by
  induction ns generalizing acc with
  | nil => simp
  | cons x t ih =>
    rw [List.foldl_cons]
    refine List.Perm.trans (ih _) ?_
    refine List.Perm.trans (List.Perm.append_right t (flatten_dictAppend acc _ x)) ?_
    rw [List.append_assoc]
    exact List.Perm.refl _

/-- C1: the claim that `categorize` keeps `http` and `https` as two distinct
tags is false on the code: the alias table maps `https` to `http`, so
`categorize(["http://a", "https://b"])` yields the single bucket `http`
holding both nodes and no `https` key at all. -/
theorem claim_C1_counterexample :
    categorize_nodes [['h','t','t','p',':','/','/','a'], ['h','t','t','p','s',':','/','/','b']]
      = [(httpKey, [['h','t','t','p',':','/','/','a'], ['h','t','t','p','s',':','/','/','b']])]
    ∧ dictGet httpsKey
        (categorize_nodes [['h','t','t','p',':','/','/','a'], ['h','t','t','p','s',':','/','/','b']])
      = none := by
  constructor
  · decide
  · decide

/-- C1 (amended): `categorize` canonicalizes `hysteria2` to `hy2`, and also
canonicalizes `https` to `http`: a node with scheme `http` or `https` lands in
the single bucket `http`, and neither `https` nor `hysteria2` ever appears as
a key of the output map. -/
theorem claim_C1_amended (ns : List Str) :
    dictGet httpsKey (categorize_nodes ns) = none ∧
    dictGet hysteria2Key (categorize_nodes ns) = none ∧
    (∀ n ∈ ns, lowerStr (splitSS n) = hysteria2Key →
      ∃ b, dictGet hy2Key (categorize_nodes ns) = some b ∧ n ∈ b) ∧
    (∀ n ∈ ns, lowerStr (splitSS n) = httpKey ∨ lowerStr (splitSS n) = httpsKey →
      ∃ b, dictGet httpKey (categorize_nodes ns) = some b ∧ n ∈ b) := by
  refine ⟨?_, ?_, ?_, ?_⟩
  · exact categorize_get_none ns [] rfl (fun n _ => aliasCanon_ne_https _)
  · exact categorize_get_none ns [] rfl (fun n _ => aliasCanon_ne_hysteria2 _)
  · intro n hn htag
    have h := categorize_mem_bucket hn ([] : List (Str × List Str))
    rw [show tagOf n = hy2Key from by rw [tagOf, htag]; rfl] at h
    exact h
  · intro n hn htag
    have h := categorize_mem_bucket hn ([] : List (Str × List Str))
    rcases htag with htag | htag
    · rw [show tagOf n = httpKey from by rw [tagOf, htag]; rfl] at h
      exact h
    · rw [show tagOf n = httpKey from by rw [tagOf, htag]; rfl] at h
      exact h

/-- C1 witness: the amended claim applied to the concrete input
`["hysteria2://x", "http://a", "https://b"]`. -/
theorem claim_C1_witness :
    (∃ b, dictGet hy2Key (categorize_nodes
        [['h','y','s','t','e','r','i','a','2',':','/','/','x'],
         ['h','t','t','p',':','/','/','a'], ['h','t','t','p','s',':','/','/','b']]) = some b
      ∧ ['h','y','s','t','e','r','i','a','2',':','/','/','x'] ∈ b) ∧
    (∃ b, dictGet httpKey (categorize_nodes
        [['h','y','s','t','e','r','i','a','2',':','/','/','x'],
         ['h','t','t','p',':','/','/','a'], ['h','t','t','p','s',':','/','/','b']]) = some b
      ∧ ['h','t','t','p','s',':','/','/','b'] ∈ b) :=
  ⟨(claim_C1_amended _).2.2.1 _ (by simp) (by decide),
   (claim_C1_amended _).2.2.2 _ (by simp) (Or.inr (by decide))⟩

/-- C8: the claim that a node with no `://` is dropped from every bucket is
wrong about the code: `"garbage".split('://', 1)` returns `["garbage"]`, so
indexing `[0]` never raises `IndexError`, the except branch documented as
"invalid-format links are ignored" is dead, and the node is filed under the
bucket keyed by the whole (lower-cased) string. -/
theorem claim_C8_code_divergence :
    categorize_nodes [['g','a','r','b','a','g','e']]
      = [(['g','a','r','b','a','g','e'], [['g','a','r','b','a','g','e']])]
    ∧ hasSub sepSS ['g','a','r','b','a','g','e'] = false := by
  constructor
  · decide
  · decide

/-- C3: the claim `categorize(N)["all"] == sorted(unique(N))` fails on the
code path that main.py actually uses: `_save_categorized_nodes` of
src/file_handler.py stores `sorted(all_nodes)` without deduplication, so a
duplicated input node appears twice under `"all"`. -/
theorem claim_C3_counterexample :
    dictGet allKey (save_categorized_nodes_fh (categorize_nodes
        [['s','s',':','/','/','a'], ['s','s',':','/','/','a']]))
      = some [['s','s',':','/','/','a'], ['s','s',':','/','/','a']]
    ∧ sortDedup [['s','s',':','/','/','a'], ['s','s',':','/','/','a']]
      = [['s','s',':','/','/','a']] := by
  constructor
  · decide
  · decide

/-- C3 (amended): after the "all"-synthesis step, `"all"` holds the sorted
node collection: the src/config.py variant deduplicates and therefore equals
`sorted(unique(N))` for every non-empty `N`; the src/file_handler.py variant
keeps duplicates and equals `sorted(unique(N))` exactly when `N` is
duplicate-free (as produced by `parse_nodes`/`scrape_channel`); for an empty
collection neither synthesizes an `"all"` entry. -/
theorem claim_C3_amended (ns : List Str) :
    (ns = [] → dictGet allKey (save_categorized_nodes_fh (categorize_nodes ns)) = none
      ∧ dictGet allKey (save_categorized_nodes_cfg (categorize_nodes ns)) = none) ∧
    (ns ≠ [] → dictGet allKey (save_categorized_nodes_cfg (categorize_nodes ns))
      = some (sortDedup ns)) ∧
    (ns ≠ [] → ns.Nodup → dictGet allKey (save_categorized_nodes_fh (categorize_nodes ns))
      = some (sortDedup ns)) := by
  have hperm : List.Perm (((categorize_nodes ns).map Prod.snd).flatten) ns := by
    have h := categorize_flatten_perm ns []
    simpa using h
  refine ⟨?_, ?_, ?_⟩
  · rintro rfl
    constructor
    · rfl
    · rfl
  · intro hne
    have hflat : (((categorize_nodes ns).map Prod.snd).flatten).isEmpty = false := by
      rw [List.isEmpty_eq_false_iff_exists_mem]
      cases ns with
      | nil => exact absurd rfl hne
      | cons x t => exact ⟨x, hperm.mem_iff.mpr (by simp)⟩
    rw [save_categorized_nodes_cfg]
    simp only [hflat, Bool.false_eq_true, if_false]
    rw [dictGet_dictSet_self]
    refine congrArg some (sorted_ext (sorted_sortDedup _) (sorted_sortDedup _) ?_)
    intro x
    rw [mem_sortDedup, mem_sortDedup, hperm.mem_iff]
  · intro hne hnd
    have hflat : (((categorize_nodes ns).map Prod.snd).flatten).isEmpty = false := by
      rw [List.isEmpty_eq_false_iff_exists_mem]
      cases ns with
      | nil => exact absurd rfl hne
      | cons x t => exact ⟨x, hperm.mem_iff.mpr (by simp)⟩
    rw [save_categorized_nodes_fh]
    simp only [hflat, Bool.false_eq_true, if_false]
    rw [dictGet_dictSet_self]
    refine congrArg some ?_
    have hperm2 : List.Perm (sortPy (((categorize_nodes ns).map Prod.snd).flatten)) ns :=
      List.Perm.trans (sortPy_perm _) hperm
    have hnd2 : (sortPy (((categorize_nodes ns).map Prod.snd).flatten)).Nodup :=
      hperm2.nodup_iff.mpr hnd
    refine sorted_ext (sortedLe_nodup_sorted (sortPy_sortedLe _) hnd2) (sorted_sortDedup _) ?_
    intro x
    rw [mem_sortDedup, hperm2.mem_iff]

/-- C3 witness: the amended claim applied to the concrete duplicate-free
input `["ss://b", "ss://a"]`. -/
theorem claim_C3_witness :
    dictGet allKey (save_categorized_nodes_fh (categorize_nodes
        [['s','s',':','/','/','b'], ['s','s',':','/','/','a']]))
      = some (sortDedup [['s','s',':','/','/','b'], ['s','s',':','/','/','a']])
    ∧ dictGet allKey (save_categorized_nodes_cfg (categorize_nodes
        [['s','s',':','/','/','b'], ['s','s',':','/','/','a']]))
      = some (sortDedup [['s','s',':','/','/','b'], ['s','s',':','/','/','a']]) :=
  ⟨(claim_C3_amended _).2.2 (by decide) (by decide),
   (claim_C3_amended _).2.1 (by decide)⟩

/-- C10: the claim that a failed UTF-8 decode falls back to the *cleaned*
text is wrong: `decode_content` returns the untouched original input
(`return content`).  On `" gA== \n"` the blob `gA==` passes the round-trip
check, decodes to the byte 0x80 which is not valid UTF-8, and the function
returns `" gA== \n"`, not the cleaned `"gA=="`. -/
theorem claim_C10_counterexample :
    is_base64 ['g','A','=','='] = true
    ∧ b64decodePy ['g','A','=','='] = some [128]
    ∧ utf8Decode [128] = none
    ∧ decode_content [' ','g','A','=','=',' ','\n'] = [' ','g','A','=','=',' ','\n']
    ∧ joinNL (cleanLines [' ','g','A','=','=',' ','\n']) = ['g','A','=','=']
    ∧ [' ','g','A','=','=',' ','\n'] ≠ joinNL (cleanLines [' ','g','A','=','=',' ','\n']) := by
  refine ⟨by decide, by decide, by decide, by decide, by decide, by decide⟩

/-- C10 (amended): when the cleaned, joined input passes the strict base64
round-trip check but its bytes are not valid UTF-8, `decode_content` returns
the original input text unchanged — a non-fatal degradation, but to the
*original* text, not the cleaned text. -/
theorem claim_C10_amended (content : Str) (bs : List Nat)
    (h1 : (cleanLines content).isEmpty = false)
    (h2 : (cleanLines content).all (fun l => !l.contains ' ') = true)
    (h3 : is_base64 ((cleanLines content).flatten) = true)
    (h4 : b64decodePy ((cleanLines content).flatten) = some bs)
    (h5 : utf8Decode bs = none) :
    decode_content content = content := by
  rw [decode_content]
  simp only [h1, h2, Bool.not_false, Bool.and_self, if_true, h3, h4, h5]

/-- C10 witness: the amended claim applied to `" gA== \n"`. -/
theorem claim_C10_witness :
    decode_content [' ','g','A','=','=',' ','\n'] = [' ','g','A','=','=',' ','\n'] :=
  claim_C10_amended _ [128] (by decide) (by decide) (by decide) (by decide) (by decide)

/-- C4: `scrape_channel` reports `isValid=false` (with an empty node list)
exactly on the 404 fetch outcome; any other HTTP error, a request error
(timeout, connection failure), and a fetched page with no post elements all
yield `isValid=true` with an empty node list. -/
theorem claim_C4 (cutoff : Int) (f : FetchOutcome) :
    ((scrape_channel cutoff f).2 = false ↔ f = FetchOutcome.notFound) ∧
    scrape_channel cutoff FetchOutcome.notFound = ([], false) ∧
    scrape_channel cutoff FetchOutcome.httpError = ([], true) ∧
    scrape_channel cutoff FetchOutcome.requestError = ([], true) ∧
    scrape_channel cutoff (FetchOutcome.success []) = ([], true) := by
  refine ⟨?_, rfl, rfl, rfl, rfl⟩
  cases f with
  | notFound => simp [scrape_channel]
  | httpError => simp [scrape_channel]
  | requestError => simp [scrape_channel]
  | success posts =>
    rw [scrape_channel]
    by_cases h : posts.isEmpty
    · simp [h]
    · simp [h]

/-- C5: the post loop is a prefix scan: a post with a missing or unparseable
timestamp is skipped without terminating the scan, and the first post whose
parsed timestamp is older than the cutoff terminates the scan, so the result
equals the scan of the preceding prefix alone — no node of the old post or of
any later post is included. -/
theorem claim_C5 (cutoff : Int) (m : TgMessage) (ms pre rest : List TgMessage) (t : Int) :
    ((m.time = TimeAttr.missing ∨ m.time = TimeAttr.unparseable) →
      scrapeLoop cutoff (m :: ms) = scrapeLoop cutoff ms) ∧
    (m.time = TimeAttr.parsed t → t < cutoff →
      scrapeLoop cutoff (pre ++ m :: rest) = scrapeLoop cutoff pre) := by
  constructor
  · rintro (h | h) <;> simp [scrapeLoop, h]
  · intro hm ht
    induction pre with
    | nil => simp [scrapeLoop, hm, ht]
    | cons q qs ih =>
      cases hq : q.time with
      | missing => simp [scrapeLoop, hq, ih]
      | unparseable => simp [scrapeLoop, hq, ih]
      | parsed tq =>
        by_cases htq : tq < cutoff
        · simp [scrapeLoop, hq, htq]
        · simp [scrapeLoop, hq, htq, ih]

/-- C5 witness: the prefix-scan claim applied to a concrete feed — the old
post (timestamp −1 against cutoff 0) and everything after it are excluded,
and a missing-timestamp post is skipped. -/
theorem claim_C5_witness :
    scrapeLoop 0 [⟨[], [], ['s','s',':','/','/','a'], TimeAttr.parsed 5⟩,
                  ⟨[], [], ['s','s',':','/','/','b'], TimeAttr.parsed (-1)⟩,
                  ⟨[], [], ['s','s',':','/','/','c'], TimeAttr.parsed 5⟩]
      = scrapeLoop 0 [⟨[], [], ['s','s',':','/','/','a'], TimeAttr.parsed 5⟩]
    ∧ scrapeLoop 0 [⟨[], [], ['s','s',':','/','/','x'], TimeAttr.missing⟩,
                    ⟨[], [], ['s','s',':','/','/','a'], TimeAttr.parsed 5⟩]
      = scrapeLoop 0 [⟨[], [], ['s','s',':','/','/','a'], TimeAttr.parsed 5⟩] :=
  ⟨(claim_C5 0 ⟨[], [], ['s','s',':','/','/','b'], TimeAttr.parsed (-1)⟩ []
      [⟨[], [], ['s','s',':','/','/','a'], TimeAttr.parsed 5⟩]
      [⟨[], [], ['s','s',':','/','/','c'], TimeAttr.parsed 5⟩] (-1)).2 rfl (by decide),
   (claim_C5 0 ⟨[], [], ['s','s',':','/','/','x'], TimeAttr.missing⟩
      [⟨[], [], ['s','s',':','/','/','a'], TimeAttr.parsed 5⟩] [] [] 0).1 (Or.inl rfl)⟩

/-- C7: the claim misdescribes the candidate text.  The code concatenates
(i) `t.me/proxy?` anchor hrefs, (ii) code/pre contents, (iii) the plain text;
it has no base64-token layer and performs no HTML-unescaping.  On a post
whose text is the single 28-character base64 token of
`vless://aa@bb.cc:123`, the claimed candidate (with the decoded layer)
differs from what the code hands to the extractor. -/
theorem claim_C7_counterexample :
    extract_potential_configs_from_message
        ⟨[], [], ['d','m','x','l','c','3','M','6','L','y','9','h','Y','U','B','i','Y','i','5','j','Y','z','o','x','M','j','M','='], TimeAttr.missing⟩
      = ['d','m','x','l','c','3','M','6','L','y','9','h','Y','U','B','i','Y','i','5','j','Y','z','o','x','M','j','M','=']
    ∧ specCandidateText
        ⟨[], [], ['d','m','x','l','c','3','M','6','L','y','9','h','Y','U','B','i','Y','i','5','j','Y','z','o','x','M','j','M','='], TimeAttr.missing⟩
      = ['d','m','x','l','c','3','M','6','L','y','9','h','Y','U','B','i','Y','i','5','j','Y','z','o','x','M','j','M','=']
        ++ '\n' :: ['v','l','e','s','s',':','/','/','a','a','@','b','b','.','c','c',':','1','2','3']
    ∧ extract_potential_configs_from_message
        ⟨[], [], ['d','m','x','l','c','3','M','6','L','y','9','h','Y','U','B','i','Y','i','5','j','Y','z','o','x','M','j','M','='], TimeAttr.missing⟩
      ≠ specCandidateText
        ⟨[], [], ['d','m','x','l','c','3','M','6','L','y','9','h','Y','U','B','i','Y','i','5','j','Y','z','o','x','M','j','M','='], TimeAttr.missing⟩ := by
  refine ⟨by decide, by decide, by decide⟩

/-- C7 (amended): for every post within the cutoff, the candidate text handed
to the node extractor is the newline-join of the post's `t.me/proxy?` anchor
hrefs, its preformatted/code contents, and its full plain-text rendering —
with no base64-token layer and no HTML-unescaping. -/
theorem claim_C7_amended (cutoff : Int) (m : TgMessage) (ms : List TgMessage) (t : Int)
    (h1 : m.time = TimeAttr.parsed t) (h2 : ¬ t < cutoff)
    (h3 : (stripStr (joinNL
        ((m.hrefs.filter (fun h => hasSub tgNeedle h)) ++ m.codePre ++ [m.text]))).isEmpty
      = false) :
    scrapeLoop cutoff (m :: ms)
      = find_and_split_configs (joinNL
          ((m.hrefs.filter (fun h => hasSub tgNeedle h)) ++ m.codePre ++ [m.text]))
        ++ scrapeLoop cutoff ms := by
  have h3b := h3
  rw [List.append_assoc] at h3b
  simp [scrapeLoop, h1, h2, extract_potential_configs_from_message, h3, h3b]

/-- C7 witness: the amended claim applied to a concrete post. -/
theorem claim_C7_witness :
    scrapeLoop 0 [⟨[], [], ['s','s',':','/','/','a'], TimeAttr.parsed 1⟩]
      = find_and_split_configs (joinNL ([] ++ [] ++ [['s','s',':','/','/','a']]))
        ++ scrapeLoop 0 [] :=
  claim_C7_amended 0 ⟨[], [], ['s','s',':','/','/','a'], TimeAttr.parsed 1⟩ [] 1 rfl
    (by decide) (by decide)

/-- C9: the claim that a successful scan returns a sorted list is false:
`scrape_channel` returns `list(all_configs)` from a set, with no sorting.
With two posts contributing `vmess://bbb` then `vless://aaa`, the returned
list is not in ascending order. -/
theorem claim_C9_counterexample :
    (scrape_channel 0 (FetchOutcome.success
        [⟨[], [], ['v','m','e','s','s',':','/','/','b','b','b'], TimeAttr.parsed 5⟩,
         ⟨[], [], ['v','l','e','s','s',':','/','/','a','a','a'], TimeAttr.parsed 5⟩])).1
      = [['v','m','e','s','s',':','/','/','b','b','b'], ['v','l','e','s','s',':','/','/','a','a','a']]
    ∧ isSortedB [['v','m','e','s','s',':','/','/','b','b','b'],
        ['v','l','e','s','s',':','/','/','a','a','a']] = false := by
  refine ⟨by decide, by decide⟩

/-- C9 (amended): on every outcome, the node list returned by
`scrape_channel` is duplicate-free (set semantics); no ordering is
guaranteed. -/
theorem claim_C9_amended (cutoff : Int) (f : FetchOutcome) :
    ((scrape_channel cutoff f).1).Nodup := by
  cases f with
  | notFound => simp [scrape_channel]
  | httpError => simp [scrape_channel]
  | requestError => simp [scrape_channel]
  | success posts =>
    rw [scrape_channel]
    by_cases h : posts.isEmpty
    · simp [h]
    · simp only [h, Bool.false_eq_true, if_false]
      exact dedupFirst_nodup _

/-! ## Node-extractor lemmas -/

theorem digit_bodyChar {c : Char} (h : c.isDigit = true) : bodyChar c = true := by
  have hne : ∀ x : Char, Char.isDigit x = false → (c == x) = false := by
    intro x hx
    refine beq_eq_false_iff_ne.mpr ?_
    intro he
    rw [he, hx] at h
    exact Bool.false_ne_true h
  simp only [bodyChar, isSpaceChar,
    hne ' ' (by decide), hne '\t' (by decide), hne '\n' (by decide), hne '\r' (by decide),
    hne '\x0b' (by decide), hne '\x0c' (by decide), hne '<' (by decide), hne '>' (by decide),
    hne '"' (by decide), hne '\'' (by decide), hne '\\' (by decide),
    Bool.or_false, Bool.not_false]

theorem digit_ne_newline {c : Char} (h : c.isDigit = true) : c ≠ '\n' := by
  intro he
  rw [he] at h
  exact absurd h (by decide)

theorem protosMain_facts : ∀ p ∈ protosMain, p ≠ [] ∧ ':' ∉ p := by decide

theorem tryProtos_some_spec {ps : List Str} {s pt after : Str}
    (h : tryProtos ps s = some (pt, after)) :
    ∃ p ∈ ps, lowerStr (s.take p.length) = p ∧ (s.drop p.length).take 3 = sepSS ∧
      pt = s.take p.length ∧ after = s.drop (p.length + 3) := by
  induction ps with
  | nil => exact absurd h (by simp [tryProtos])
  | cons q qs ih =>
    by_cases hc : lowerStr (s.take q.length) = q ∧ (s.drop q.length).take 3 = sepSS
    · rw [tryProtos, if_pos hc] at h
      obtain ⟨h1, h2⟩ := Prod.mk.injEq .. ▸ Option.some.inj h
      exact ⟨q, by simp, hc.1, hc.2, h1.symm, h2.symm⟩
    · rw [tryProtos, if_neg hc] at h
      obtain ⟨p, hp, rest⟩ := ih h
      exact ⟨p, by simp [hp], rest⟩

theorem proto_check_lt_false {p1 p2 s : Str} (hc2 : ':' ∉ p2)
    (h1b : (s.drop p1.length).take 3 = sepSS)
    (h2a : lowerStr (s.take p2.length) = p2)
    (hlt : p1.length < p2.length) : False := by
  have hcolon : s[p1.length]? = some ':' := by
    rw [← List.head?_drop]
    cases hd : s.drop p1.length with
    | nil => rw [hd] at h1b; exact absurd h1b (by decide)
    | cons a t =>
      rw [hd] at h1b
      rw [List.take_cons] at h1b
      injection h1b with h1 _
      rw [List.head?_cons, h1]
      decide
  have hp2 : p2[p1.length]? = some ':' := by
    rw [← h2a]
    simp only [lowerStr, List.getElem?_map]
    rw [List.getElem?_take_of_lt hlt, hcolon]
    rfl
  have : ':' ∈ p2 := by
    have := List.get?_mem (by rw [List.get?_eq_getElem?]; exact hp2)
    exact this
  exact hc2 this

theorem proto_check_unique {p1 p2 s : Str} (hc1 : ':' ∉ p1) (hc2 : ':' ∉ p2)
    (h1a : lowerStr (s.take p1.length) = p1) (h1b : (s.drop p1.length).take 3 = sepSS)
    (h2a : lowerStr (s.take p2.length) = p2) (h2b : (s.drop p2.length).take 3 = sepSS) :
    p1 = p2 := by
  rcases Nat.lt_trichotomy p1.length p2.length with hlt | heq | hlt
  · exact absurd (proto_check_lt_false hc2 h1b h2a hlt) id
  · rw [← h1a, ← h2a, heq]
  · exact absurd (proto_check_lt_false hc1 h2b h1a hlt) id

theorem tryProtos_of_check {ps : List Str} {p : Str} {s : Str}
    (hps : ∀ q ∈ ps, q ≠ [] ∧ ':' ∉ q) (hp : p ∈ ps)
    (ha : lowerStr (s.take p.length) = p) (hb : (s.drop p.length).take 3 = sepSS) :
    tryProtos ps s = some (s.take p.length, s.drop (p.length + 3)) := by
  induction ps with
  | nil => cases hp
  | cons q qs ih =>
    by_cases hc : lowerStr (s.take q.length) = q ∧ (s.drop q.length).take 3 = sepSS
    · rw [tryProtos, if_pos hc]
      have hqp : q = p :=
        proto_check_unique (hps q (by simp)).2
          (hps p hp).2 hc.1 hc.2 ha hb
      rw [hqp]
    · rw [tryProtos, if_neg hc]
      have hpq : p ≠ q := fun he => hc (he ▸ ⟨ha, hb⟩)
      rcases List.mem_cons.mp hp with he | hp2
      · exact absurd he hpq
      · exact ih (fun r hr => hps r (List.mem_cons_of_mem q hr)) hp2

theorem wfNode_spec {n : Str} (h : wfNode n = true) :
    ∃ p ∈ protosMain, lowerStr (n.take p.length) = p ∧ (n.drop p.length).take 3 = sepSS
      ∧ n = n.take p.length ++ (sepSS ++ n.drop (p.length + 3))
      ∧ n.drop (p.length + 3) ≠ []
      ∧ ∀ c ∈ n.drop (p.length + 3), bodyChar c = true := by
  unfold wfNode at h
  cases htry : tryProtos protosMain n with
  | none => rw [htry] at h; exact absurd h (by simp)
  | some pa =>
    obtain ⟨pt, after⟩ := pa
    rw [htry] at h
    simp only [Bool.and_eq_true, Bool.not_eq_true', List.all_eq_true] at h
    obtain ⟨p, hp, ha, hb, hpt, hafter⟩ := tryProtos_some_spec htry
    subst hpt
    subst hafter
    have hne2 : n.drop (p.length + 3) ≠ [] := by
      intro he
      rw [he] at h
      simpa using h.1
    refine ⟨p, hp, ha, hb, ?_, hne2, h.2⟩
    conv_lhs => rw [← List.take_append_drop p.length n]
    congr 1
    conv_lhs => rw [← List.take_append_drop 3 (n.drop p.length)]
    rw [hb, List.drop_drop]

theorem tryProtos_none_head {ps : List Str} {c : Char} {rest : Str}
    (h : ∀ p ∈ ps, p ≠ [] ∧ p.headD '0' ≠ Char.toLower c) :
    tryProtos ps (c :: rest) = none := by
  induction ps with
  | nil => rfl
  | cons q qs ih =>
    obtain ⟨hqne, hqd⟩ := h q (by simp)
    cases q with
    | nil => exact absurd rfl hqne
    | cons d ds =>
      rw [tryProtos, if_neg, ih (fun p hp => h p (List.mem_cons_of_mem _ hp))]
      rintro ⟨ha, -⟩
      rw [List.length_cons, List.take_succ_cons, lowerStr, List.map_cons] at ha
      injection ha with ha1 _
      exact hqd (by simpa using ha1.symm)

theorem scanGo_newline (prev : Option Char) (r : Str) :
    scanGo 0 prev ('\n' :: r) = scanGo 0 (some '\n') r := by
  rw [scanGo]
  by_cases hb : boundaryB prev = true
  · rw [if_pos hb, tryProtos_none_head (by decide)]
  · rw [if_neg hb]

theorem scanGo_skip (xs : Str) (prev : Option Char) (ys : Str) (h : xs ≠ []) :
    ∃ c, scanGo xs.length prev (xs ++ ys) = scanGo 0 (some c) ys := by
  induction xs generalizing prev with
  | nil => exact absurd rfl h
  | cons x xt ih =>
    cases xt with
    | nil => exact ⟨x, rfl⟩
    | cons y yt =>
      obtain ⟨c, hc⟩ := ih (some x) (by simp)
      exact ⟨c, hc⟩

theorem scanGo_step_match (prev : Option Char) (c : Char) (rest : Str)
    (hb : boundaryB prev = true) {pt after : Str}
    (htry : tryProtos protosMain (c :: rest) = some (pt, after))
    (hbody : (after.takeWhile bodyChar).isEmpty = false) :
    scanGo 0 prev (c :: rest)
      = (pt ++ sepSS ++ after.takeWhile bodyChar)
        :: scanGo (pt.length + 2 + (after.takeWhile bodyChar).length) (some c) rest := by
  rw [scanGo, if_pos hb, htry]
  simp only [hbody, Bool.false_eq_true, if_false]

theorem scanGo_wf_append {n : Str} (rest2 : Str) (prev : Option Char)
    (hbd : boundaryB prev = true) (hwf : wfNode n = true)
    (h2 : rest2 = [] ∨ ∃ r, rest2 = '\n' :: r) :
    scanGo 0 prev (n ++ rest2) = n :: scanGo 0 (some '\n') rest2 := by
  obtain ⟨p, hp, ha, hb3, hdec, hne, hbody⟩ := wfNode_spec hwf
  have hplen : p.length ≤ n.length := by
    have hl := congrArg List.length ha
    rw [lowerStr, List.length_map, List.length_take] at hl
    omega
  have hlenpt : (n.take p.length).length = p.length := by
    rw [List.length_take]
    omega
  have hlen_n : n.length = p.length + 3 + (n.drop (p.length + 3)).length := by
    have hl := congrArg List.length hdec
    rw [List.length_append, List.length_append, hlenpt] at hl
    simp only [sepSS, List.length_cons, List.length_nil] at hl
    omega
  have hbody_len : 1 ≤ (n.drop (p.length + 3)).length := List.length_pos.mpr hne
  have hp3 : p.length + 3 ≤ n.length := by omega
  have h3le : 3 ≤ (n.drop p.length).length := by
    rw [List.length_drop]
    omega
  have hcheck1 : lowerStr ((n ++ rest2).take p.length) = p := by
    rw [List.take_append_of_le_length hplen]
    exact ha
  have hcheck2 : ((n ++ rest2).drop p.length).take 3 = sepSS := by
    rw [List.drop_append_of_le_length hplen, List.take_append_of_le_length h3le]
    exact hb3
  have htry := tryProtos_of_check protosMain_facts hp hcheck1 hcheck2
  rw [List.take_append_of_le_length hplen, List.drop_append_of_le_length hp3] at htry
  have hrest_tw : rest2.takeWhile bodyChar = [] := by
    rcases h2 with rfl | ⟨r, rfl⟩
    · rfl
    · rw [List.takeWhile_cons, if_neg (by decide)]
  have htw : ((n.drop (p.length + 3) ++ rest2).takeWhile bodyChar) = n.drop (p.length + 3) := by
    rw [List.takeWhile_append_of_pos hbody, hrest_tw, List.append_nil]
  have hn_ne : n ≠ [] := by
    intro he
    rw [he] at hlen_n
    simp at hlen_n
  obtain ⟨c, nt, rfl⟩ := List.exists_cons_of_ne_nil hn_ne
  rw [List.cons_append] at htry
  have hbe : ((((c :: nt).drop (p.length + 3)) ++ rest2).takeWhile bodyChar).isEmpty = false := by
    rw [htw]
    cases hbb : (c :: nt).drop (p.length + 3) with
    | nil => exact absurd hbb hne
    | cons a t => rfl
  rw [List.cons_append, scanGo_step_match prev c (nt ++ rest2) hbd htry hbe]
  rw [htw]
  congr 1
  · rw [List.append_assoc]
    exact hdec.symm
  · have hnt_len : ((c :: nt).take p.length).length + 2 + ((c :: nt).drop (p.length + 3)).length
        = nt.length := by
      rw [hlenpt, List.length_drop]
      simp only [List.length_cons] at hp3 ⊢
      omega
    rw [hnt_len]
    have hnt_ne : nt ≠ [] := by
      intro he
      subst he
      simp only [List.length_cons, List.length_nil] at hlen_n
      omega
    obtain ⟨c2, hc2⟩ := scanGo_skip nt (some c) rest2 hnt_ne
    rw [hc2]
    rcases h2 with rfl | ⟨r, rfl⟩
    · rfl
    · rw [scanGo_newline, scanGo_newline]

theorem scanGo_join (ns : List Str) :
    ∀ prev, boundaryB prev = true → (∀ n ∈ ns, wfNode n = true) →
      scanGo 0 prev (joinNL ns) = ns := by
  induction ns with
  | nil => intro prev _ _; rfl
  | cons n tl ih =>
    intro prev hb h
    cases tl with
    | nil =>
      have hstep := scanGo_wf_append [] prev hb (h n (by simp)) (Or.inl rfl)
      rw [List.append_nil] at hstep
      rw [show joinNL [n] = n from rfl, hstep]
      rfl
    | cons m tl2 =>
      rw [show joinNL (n :: m :: tl2) = n ++ '\n' :: joinNL (m :: tl2) from rfl]
      rw [scanGo_wf_append _ prev hb (h n (by simp)) (Or.inr ⟨_, rfl⟩)]
      rw [scanGo_newline]
      rw [ih (some '\n') (by decide) (fun x hx => h x (by simp [hx]))]

theorem wfNode_build {pt body : Str} {p : Str} (hp : p ∈ protosMain)
    (ha : lowerStr pt = p) (hlen : pt.length = p.length)
    (hne : body.isEmpty = false) (hall : body.all bodyChar = true) :
    wfNode (pt ++ sepSS ++ body) = true := by
  have h1 : (pt ++ sepSS ++ body).take p.length = pt := by
    rw [List.append_assoc, List.take_left' hlen]
  have h2 : (pt ++ sepSS ++ body).drop p.length = sepSS ++ body := by
    rw [List.append_assoc, List.drop_left' hlen]
  have hcheck1 : lowerStr ((pt ++ sepSS ++ body).take p.length) = p := by
    rw [h1]
    exact ha
  have hcheck2 : ((pt ++ sepSS ++ body).drop p.length).take 3 = sepSS := by
    rw [h2, List.take_left' (show sepSS.length = 3 from rfl)]
  have htry := tryProtos_of_check protosMain_facts hp hcheck1 hcheck2
  rw [h1] at htry
  have h3 : (pt ++ sepSS ++ body).drop (p.length + 3) = body := by
    rw [List.append_assoc, ← List.drop_drop, List.drop_left' hlen,
      List.drop_left' (show sepSS.length = 3 from rfl)]
  rw [h3] at htry
  unfold wfNode
  rw [htry]
  simp [hne, hall]

theorem scanGo_mem_wf (t : Str) :
    ∀ k prev n, n ∈ scanGo k prev t → wfNode n = true := by
  induction t with
  | nil =>
    intro k prev n hn
    simp [scanGo] at hn
  | cons c rest ih =>
    intro k prev n hn
    match k with
    | k2 + 1 => exact ih k2 (some c) n hn
    | 0 =>
      by_cases hb : boundaryB prev = true
      · rw [scanGo, if_pos hb] at hn
        cases htry : tryProtos protosMain (c :: rest) with
        | none =>
          rw [htry] at hn
          exact ih 0 (some c) n hn
        | some pa =>
          obtain ⟨pt, after⟩ := pa
          rw [htry] at hn
          by_cases hbe : (after.takeWhile bodyChar).isEmpty = true
          · simp only [hbe, if_true] at hn
            exact ih 0 (some c) n hn
          · simp only [hbe, Bool.false_eq_true, if_false] at hn
            rw [Bool.not_eq_true] at hbe
            rcases List.mem_cons.mp hn with rfl | hn2
            · obtain ⟨p, hp, ha, hb2, hpt, hafter⟩ := tryProtos_some_spec htry
              have hlen : pt.length = p.length := by
                have hl := congrArg List.length ha
                rw [lowerStr, List.length_map] at hl
                rw [hpt, hl]
              refine wfNode_build hp ?_ hlen hbe (List.all_eq_true.mpr ?_)
              · rw [hpt]
                exact ha
              · intro x hx
                exact List.mem_takeWhile_imp hx
            · exact ih _ (some c) n hn2
      · rw [scanGo, if_neg hb] at hn
        exact ih 0 (some c) n hn

theorem drop_takeWhile_len (l : Str) (p : Char → Bool) :
    l.drop (l.takeWhile p).length = l.dropWhile p := by
  induction l with
  | nil => rfl
  | cons c t ih =>
    by_cases h : p c = true
    · rw [List.takeWhile_cons, if_pos h, List.length_cons, List.drop_succ_cons, ih,
        List.dropWhile_cons, if_pos h]
    · rw [List.takeWhile_cons, if_neg h, List.length_nil, List.drop_zero,
        List.dropWhile_cons, if_neg h]

theorem tryOctet_some {s : Str} {d r : Str} (h : tryOctet s = some (d, r)) :
    d = s.takeWhile Char.isDigit ∧ 1 ≤ d.length ∧ d.length ≤ 3 ∧ s = d ++ r := by
  unfold tryOctet at h
  by_cases hc : 1 ≤ (s.takeWhile Char.isDigit).length ∧ (s.takeWhile Char.isDigit).length ≤ 3
  · rw [if_pos hc] at h
    injection h with h
    obtain ⟨h1, h2⟩ := Prod.mk.injEq .. ▸ h
    subst h1
    refine ⟨rfl, hc.1, hc.2, ?_⟩
    rw [← h2, drop_takeWhile_len, List.takeWhile_append_dropWhile]
  · rw [if_neg hc] at h
    cases h

theorem expectChar_some {c : Char} {s t : Str} (h : expectChar c s = some t) : s = c :: t := by
  cases s with
  | nil => cases h
  | cons x r =>
    simp only [expectChar] at h
    by_cases hx : x = c
    · rw [if_pos hx] at h
      injection h with h
      rw [hx, h]
    · rw [if_neg hx] at h
      cases h

theorem tryIp_spec {s m : Str} (h : tryIp s = some m) :
    m ≠ [] ∧ (∀ c ∈ m, bodyChar c = true) ∧ '\n' ∉ m ∧ ∃ tail, s = m ++ tail := by
  unfold tryIp at h
  cases h1 : tryOctet s with
  | none => simp only [h1] at h; exact absurd h (by simp)
  | some dr1 =>
  obtain ⟨d1, s1⟩ := dr1
  simp only [h1] at h
  cases h2 : expectChar '.' s1 with
  | none => simp only [h2] at h; exact absurd h (by simp)
  | some t1 =>
  simp only [h2] at h
  cases h3 : tryOctet t1 with
  | none => simp only [h3] at h; exact absurd h (by simp)
  | some dr2 =>
  obtain ⟨d2, s2⟩ := dr2
  simp only [h3] at h
  cases h4 : expectChar '.' s2 with
  | none => simp only [h4] at h; exact absurd h (by simp)
  | some t2 =>
  simp only [h4] at h
  cases h5 : tryOctet t2 with
  | none => simp only [h5] at h; exact absurd h (by simp)
  | some dr3 =>
  obtain ⟨d3, s3⟩ := dr3
  simp only [h5] at h
  cases h6 : expectChar '.' s3 with
  | none => simp only [h6] at h; exact absurd h (by simp)
  | some t3 =>
  simp only [h6] at h
  cases h7 : tryOctet t3 with
  | none => simp only [h7] at h; exact absurd h (by simp)
  | some dr4 =>
  obtain ⟨d4, s4⟩ := dr4
  simp only [h7] at h
  cases h8 : expectChar ':' s4 with
  | none => simp only [h8] at h; exact absurd h (by simp)
  | some t4 =>
  simp only [h8] at h
  by_cases hc : 1 ≤ (t4.takeWhile Char.isDigit).length
      ∧ (t4.takeWhile Char.isDigit).length ≤ 5
      ∧ afterPortOk (t4.drop (t4.takeWhile Char.isDigit).length) = true
  case neg => rw [if_neg hc] at h; cases h
  rw [if_pos hc] at h
  injection h with h
  obtain ⟨hd1, hl1a, _, hs1⟩ := tryOctet_some h1
  obtain ⟨hd2, _, _, ht1⟩ := tryOctet_some h3
  obtain ⟨hd3, _, _, ht2⟩ := tryOctet_some h5
  obtain ⟨hd4, _, _, ht3⟩ := tryOctet_some h7
  have hs1e := expectChar_some h2
  have hs2e := expectChar_some h4
  have hs3e := expectChar_some h6
  have hs4e := expectChar_some h8
  have hdg1 : ∀ c ∈ d1, c.isDigit = true := fun c hcc => List.mem_takeWhile_imp (hd1 ▸ hcc)
  have hdg2 : ∀ c ∈ d2, c.isDigit = true := fun c hcc => List.mem_takeWhile_imp (hd2 ▸ hcc)
  have hdg3 : ∀ c ∈ d3, c.isDigit = true := fun c hcc => List.mem_takeWhile_imp (hd3 ▸ hcc)
  have hdg4 : ∀ c ∈ d4, c.isDigit = true := fun c hcc => List.mem_takeWhile_imp (hd4 ▸ hcc)
  have hdig5 : ∀ c ∈ t4.takeWhile Char.isDigit, c.isDigit = true := by
    intro c hcc
    exact List.mem_takeWhile_imp hcc
  refine ⟨?_, ?_, ?_, ?_⟩
  · intro he
    rw [← h] at he
    have hL := congrArg List.length he
    simp [List.length_append] at hL
  · intro c hcc
    rw [← h] at hcc
    simp only [List.mem_append, List.mem_cons] at hcc
    rcases hcc with hq | rfl | hq | rfl | hq | rfl | hq | rfl | hq
    · exact digit_bodyChar (hdg1 c hq)
    · decide
    · exact digit_bodyChar (hdg2 c hq)
    · decide
    · exact digit_bodyChar (hdg3 c hq)
    · decide
    · exact digit_bodyChar (hdg4 c hq)
    · decide
    · exact digit_bodyChar (hdig5 c hq)
  · intro hcc
    rw [← h] at hcc
    simp only [List.mem_append, List.mem_cons] at hcc
    rcases hcc with hq | he | hq | he | hq | he | hq | he | hq
    · exact digit_ne_newline (hdg1 _ hq) rfl
    · exact absurd he.symm (by decide)
    · exact digit_ne_newline (hdg2 _ hq) rfl
    · exact absurd he.symm (by decide)
    · exact digit_ne_newline (hdg3 _ hq) rfl
    · exact absurd he.symm (by decide)
    · exact digit_ne_newline (hdg4 _ hq) rfl
    · exact absurd he.symm (by decide)
    · exact digit_ne_newline (hdig5 _ hq) rfl
  · refine ⟨t4.drop (t4.takeWhile Char.isDigit).length, ?_⟩
    rw [← h, hs1, hs1e, ht1, hs2e, ht2, hs3e, ht3, hs4e]
    rw [drop_takeWhile_len]
    simp only [List.append_assoc, List.cons_append]
    rw [List.takeWhile_append_dropWhile]

theorem scanIpGo_mem (t : Str) :
    ∀ k prev m, m ∈ scanIpGo k prev t →
      m ≠ [] ∧ (∀ c ∈ m, bodyChar c = true) ∧ '\n' ∉ m ∧ ∃ x y, t = x ++ (m ++ y) := by
  induction t with
  | nil =>
    intro k prev m hm
    simp [scanIpGo] at hm
  | cons c rest ih =>
    intro k prev m hm
    match k with
    | k2 + 1 =>
      obtain ⟨ha, hbc, hnl, x, y, hxy⟩ := ih k2 (some c) m hm
      exact ⟨ha, hbc, hnl, c :: x, y, by rw [hxy]; rfl⟩
    | 0 =>
      by_cases hb : boundaryB prev = true
      · rw [scanIpGo, if_pos hb] at hm
        cases htry : tryIp (c :: rest) with
        | none =>
          rw [htry] at hm
          obtain ⟨ha, hbc, hnl, x, y, hxy⟩ := ih 0 (some c) m hm
          exact ⟨ha, hbc, hnl, c :: x, y, by rw [hxy]; rfl⟩
        | some m0 =>
          rw [htry] at hm
          rcases List.mem_cons.mp hm with rfl | hm2
          · obtain ⟨ha, hbc, hnl, tail, htail⟩ := tryIp_spec htry
            exact ⟨ha, hbc, hnl, [], tail, by rw [htail]; rfl⟩
          · obtain ⟨ha, hbc, hnl, x, y, hxy⟩ := ih _ (some c) m hm2
            exact ⟨ha, hbc, hnl, c :: x, y, by rw [hxy]; rfl⟩
      · rw [scanIpGo, if_neg hb] at hm
        obtain ⟨ha, hbc, hnl, x, y, hxy⟩ := ih 0 (some c) m hm
        exact ⟨ha, hbc, hnl, c :: x, y, by rw [hxy]; rfl⟩

theorem prefix_no_nl {m : Str} (hnl : '\n' ∉ m) :
    ∀ {a b y : Str}, a ++ '\n' :: b = m ++ y → ∃ y2, a = m ++ y2 := by
  induction m with
  | nil => exact fun {a b y} _ => ⟨a, rfl⟩
  | cons mc mt ih =>
    intro a b y h
    cases a with
    | nil =>
      injection h with h1 _
      exact absurd (by rw [h1]; exact List.mem_cons_self mc mt) hnl
    | cons ac at2 =>
      injection h with h1 h2
      obtain ⟨y2, hy2⟩ := ih (fun hx => hnl (List.mem_cons_of_mem _ hx)) h2
      exact ⟨y2, by rw [h1, hy2]; rfl⟩

theorem append_nl_split {m : Str} (hnl : '\n' ∉ m) :
    ∀ {x a b y : Str}, a ++ '\n' :: b = x ++ (m ++ y) →
      (∃ y2, a = x ++ (m ++ y2)) ∨ (∃ x2, b = x2 ++ (m ++ y)) := by
  intro x
  induction x with
  | nil =>
    intro a b y h
    simp only [List.nil_append] at h ⊢
    exact Or.inl (prefix_no_nl hnl h)
  | cons xc xt ih =>
    intro a b y h
    cases a with
    | nil =>
      injection h with _ h2
      exact Or.inr ⟨xt, h2⟩
    | cons ac at2 =>
      injection h with h1 h2
      rcases ih h2 with ⟨y2, hy⟩ | hr
      · exact Or.inl ⟨y2, by rw [h1, hy]; rfl⟩
      · exact Or.inr hr

theorem chunk_in_join {ns : List Str} {m : Str} (hnl : '\n' ∉ m) (hm : m ≠ []) :
    ∀ x y, joinNL ns = x ++ (m ++ y) → ∃ n ∈ ns, ∃ u v, n = u ++ (m ++ v) := by
  induction ns with
  | nil =>
    intro x y he
    rw [show joinNL ([] : List Str) = [] from rfl] at he
    have h2 := he.symm
    rw [List.append_eq_nil] at h2
    have h3 := h2.2
    rw [List.append_eq_nil] at h3
    exact absurd h3.1 hm
  | cons n tl ih =>
    intro x y he
    cases tl with
    | nil => exact ⟨n, by simp, x, y, by simpa [joinNL] using he⟩
    | cons n2 tl2 =>
      rw [show joinNL (n :: n2 :: tl2) = n ++ '\n' :: joinNL (n2 :: tl2) from rfl] at he
      rcases append_nl_split hnl he with ⟨y2, hy⟩ | ⟨x2, hx⟩
      · exact ⟨n, by simp, x, y2, hy⟩
      · obtain ⟨n3, hn3, u, v, huv⟩ := ih x2 y hx
        exact ⟨n3, by simp [hn3], u, v, huv⟩

theorem leadsWith_self_append (m v : Str) : leadsWith m (m ++ v) = true := by
  induction m with
  | nil => rfl
  | cons c t ih => simp [leadsWith, ih]

theorem hasSub_of_split (m u v : Str) : hasSub m (u ++ (m ++ v)) = true := by
  induction u with
  | nil =>
    simp only [List.nil_append]
    cases hmv : m ++ v with
    | nil =>
      have hm : m = [] := (List.append_eq_nil.mp hmv).1
      rw [hm]
      rfl
    | cons c t =>
      rw [hasSub, ← hmv, leadsWith_self_append]
      rfl
  | cons c ut ih =>
    rw [List.cons_append, hasSub, ih]
    simp

theorem addProxies_id (found : List Str) (ps : List Str)
    (h : ∀ p ∈ ps, ∃ n ∈ found, ∃ u v, n = u ++ (p ++ v)) :
    addProxies found ps = found := by
  induction ps with
  | nil => rfl
  | cons p t ih =>
    obtain ⟨n, hn, u, v, huv⟩ := h p (by simp)
    have hany : found.any (fun x => hasSub p x) = true := by
      rw [List.any_eq_true]
      exact ⟨n, hn, by rw [huv]; exact hasSub_of_split p u v⟩
    rw [addProxies, if_pos hany]
    exact ih (fun q hq => h q (by simp [hq]))

theorem addProxies_mem (ps : List Str) :
    ∀ (found : List Str) (n : Str), n ∈ addProxies found ps →
      n ∈ found ∨ ∃ p ∈ ps, n = httpPre ++ p := by
  induction ps with
  | nil => exact fun found n hn => Or.inl hn
  | cons p t ih =>
    intro found n hn
    rw [addProxies] at hn
    by_cases hc : found.any (fun x => hasSub p x) = true
    · rw [if_pos hc] at hn
      rcases ih found n hn with h | ⟨q, hq, he⟩
      · exact Or.inl h
      · exact Or.inr ⟨q, by simp [hq], he⟩
    · rw [if_neg hc] at hn
      rcases ih _ n hn with h | ⟨q, hq, he⟩
      · rcases List.mem_append.mp h with h2 | h2
        · exact Or.inl h2
        · simp only [List.mem_singleton] at h2
          exact Or.inr ⟨p, by simp, h2⟩
      · exact Or.inr ⟨q, by simp [hq], he⟩

theorem wfNode_http_proxy {m : Str} (hne : m ≠ []) (hb : ∀ c ∈ m, bodyChar c = true) :
    wfNode (httpPre ++ m) = true := by
  have he : httpPre ++ m = httpKey ++ sepSS ++ m := rfl
  rw [he]
  have hp : httpKey ∈ protosMain := by decide
  have ha : lowerStr httpKey = httpKey := by decide
  refine wfNode_build hp ha rfl ?_ ?_
  · cases m with
    | nil => exact absurd rfl hne
    | cons a t => rfl
  · exact List.all_eq_true.mpr hb

theorem parse_nodes_mem_wf {t n : Str} (h : n ∈ parse_nodes t) : wfNode n = true := by
  rw [parse_nodes, mem_sortDedup] at h
  rcases addProxies_mem _ _ _ h with h2 | ⟨p, hp, rfl⟩
  · exact scanGo_mem_wf t 0 none n h2
  · obtain ⟨h1, h2, _, _⟩ := scanIpGo_mem t 0 none p hp
    exact wfNode_http_proxy h1 h2

theorem parse_nodes_sorted (t : Str) : isSortedB (parse_nodes t) = true :=
  sorted_sortDedup _

/-- C6: `parse_nodes` is idempotent — re-running it on the newline join of
its own output returns exactly the same sorted deduplicated list, for every
input text. -/
theorem claim_C6 (t : Str) : parse_nodes (joinNL (parse_nodes t)) = parse_nodes t := by
  have hwf : ∀ n ∈ parse_nodes t, wfNode n = true := fun n hn => parse_nodes_mem_wf hn
  have hscan : scanGo 0 none (joinNL (parse_nodes t)) = parse_nodes t :=
    scanGo_join _ none rfl hwf
  have hip : ∀ p ∈ scanIpGo 0 none (joinNL (parse_nodes t)),
      ∃ n ∈ parse_nodes t, ∃ u v, n = u ++ (p ++ v) := by
    intro p hp
    obtain ⟨h1, _, h3, x, y, hxy⟩ := scanIpGo_mem _ 0 none p hp
    exact chunk_in_join h3 h1 x y hxy
  conv_lhs => rw [parse_nodes]
  rw [hscan, addProxies_id _ _ hip, sortDedup_of_sorted (parse_nodes_sorted t)]

/-- C2: concatenation splitting.  For a text that is exactly two well-formed
proxy URIs back to back — the standard-pattern scan finds scheme starts
exactly at 0 and at the boundary, there is no Telegram proxy link, and
neither URI contains whitespace — `find_and_split_configs` returns exactly
the two separate nodes. -/
theorem claim_C2 (u v : Str)
    (h1 : wfNode u = true) (h2 : wfNode v = true)
    (h3 : standardIndices (u ++ v) = [0, u.length])
    (h4 : scanTgGo 0 (u ++ v) = [])
    (h5 : ∀ c ∈ u, isSpaceChar c = false) (h6 : ∀ c ∈ v, isSpaceChar c = false) :
    find_and_split_configs (u ++ v) = sortDedup [u, v]
    ∧ ∀ x, x ∈ find_and_split_configs (u ++ v) ↔ (x = u ∨ x = v) := by
  have hparts : slicesAt (u ++ v) [0, u.length] = [u, v] := by
    rw [slicesAt, slicesAt]
    simp only [List.drop_zero, Nat.sub_zero]
    rw [List.take_left, List.drop_left]
    rw [stripStr_of_noSpace h5, stripStr_of_noSpace h6]
  have hwf2 : ∀ n ∈ [u, v], wfNode n = true := by
    intro n hn
    simp only [List.mem_cons, List.mem_singleton] at hn
    rcases hn with rfl | rfl | hfalse
    · exact h1
    · exact h2
    · cases hfalse
  have hjoin2 : joinNL [u, v] = u ++ '\n' :: v := rfl
  have hmain : parse_nodes (joinNL [u, v]) = sortDedup [u, v] := by
    have hscan : scanGo 0 none (joinNL [u, v]) = [u, v] := scanGo_join _ none rfl hwf2
    have hip : ∀ p ∈ scanIpGo 0 none (joinNL [u, v]),
        ∃ n ∈ [u, v], ∃ a b, n = a ++ (p ++ b) := by
      intro p hp
      obtain ⟨hp1, _, hp3, x, y, hxy⟩ := scanIpGo_mem _ 0 none p hp
      exact chunk_in_join hp3 hp1 x y hxy
    conv_lhs => rw [parse_nodes]
    rw [hscan, addProxies_id _ _ hip]
  have hres : find_and_split_configs (u ++ v) = sortDedup [u, v] := by
    rw [find_and_split_configs, h4, h3, hparts]
    simp only [List.filterMap_nil, List.nil_append]
    exact hmain
  refine ⟨hres, fun x => ?_⟩
  rw [hres, mem_sortDedup]
  simp

/-- C2 witness: the claim applied to the concrete concatenation
`"vless://aaa" + "vmess://bbb"`, which yields exactly the two nodes. -/
theorem claim_C2_witness :
    find_and_split_configs
        (['v','l','e','s','s',':','/','/','a','a','a'] ++ ['v','m','e','s','s',':','/','/','b','b','b'])
      = sortDedup [['v','l','e','s','s',':','/','/','a','a','a'],
          ['v','m','e','s','s',':','/','/','b','b','b']]
    ∧ sortDedup [['v','l','e','s','s',':','/','/','a','a','a'],
          ['v','m','e','s','s',':','/','/','b','b','b']]
      = [['v','l','e','s','s',':','/','/','a','a','a'], ['v','m','e','s','s',':','/','/','b','b','b']] :=
  ⟨(claim_C2 ['v','l','e','s','s',':','/','/','a','a','a'] ['v','m','e','s','s',':','/','/','b','b','b']
      (by decide) (by decide) (by decide) (by decide) (by decide) (by decide)).1,
   by decide⟩
